import Mathlib

/-!
Verification of the Xiangqi-Claw rule engine, position codec, notation
translator, game-state replay and analysis-dispatcher protocol.

The TypeScript sources are shallowly embedded: TS strings become `List Char`,
TS arrays become `List`, a board is a `List (List (Option Char))` indexed
through a bounds-guarded accessor (every out-of-range read in the source is
guarded by `inBounds` before the array access), and the `for`-loops with
`break` in the ray scanners become fuel-based structural recursions whose fuel
equals the source's iteration bound.
-/

set_option maxHeartbeats 1000000
set_option maxRecDepth 100000

/-- A side, as in the source a string: 'w' (red / first mover) or 'b' (black).
`parseFen` casts the raw token unchecked, so the type carries arbitrary text. -/
abbrev Side := List Char

/-- A board square; fields are TS numbers, modelled as integers since the ray
scanners form intermediate coordinates that can be negative. -/
structure Square where
  row : Int
  col : Int
deriving DecidableEq, Repr

/-- A board: 10 rank rows of 9 cells, each an optional piece character. -/
abbrev Board := List (List (Option Char))

/-- A position: board plus side to move (fen.ts `Position`). -/
structure Position where
  board : Board
  turn : Side
deriving DecidableEq, Repr

/-- Bounds-guarded cell read: `board[r][c]`, `none` for an empty cell and for
any index outside the stored lists (in the source every read is guarded by
`inBounds`, so the two agree on all executed reads). -/
def bget (b : Board) (r c : Int) : Option Char :=
  if 0 ≤ r ∧ 0 ≤ c then ((b[r.toNat]?).bind fun row => row[c.toNat]?).join
  else none

/-- Bounds-guarded cell write `board[r][c] = v` (the source only writes
in-range squares; out-of-range writes are modelled as no-ops). -/
def bset (b : Board) (r c : Int) (v : Option Char) : Board :=
  if 0 ≤ r ∧ 0 ≤ c then
    match b[r.toNat]? with
    | some row => b.set r.toNat (row.set c.toNat v)
    | none => b
  else b

/-- The shared board-update step of `generateLegalMoves` and `applyMove`:
`newBoard[to] = newBoard[from]; newBoard[from] = null`. -/
def boardMovePiece (b : Board) (f t : Square) : Board :=
  bset (bset b t.row t.col (bget b f.row f.col)) f.row f.col none

/-- A board is the 10 × 9 grid the data model prescribes. -/
def boardWF (b : Board) : Prop :=
  b.length = 10 ∧ ∀ row ∈ b, row.length = 9

instance : DecidablePred boardWF := fun b => by unfold boardWF; infer_instance

/-- fen.ts `isRedPiece`: uppercase characters are red. -/
def isRedPiece (p : Char) : Bool := p.toUpper = p

/-- xiangqi.ts `pieceColor`. -/
def pieceColor (p : Char) : Side := if isRedPiece p then ['w'] else ['b']

/-- xiangqi.ts `inBounds`. -/
def inBounds (r c : Int) : Bool :=
  decide (0 ≤ r) && decide (r < 10) && decide (0 ≤ c) && decide (c < 9)

/-- xiangqi.ts `inPalace`. -/
def inPalace (r c : Int) (side : Side) : Bool :=
  if c < 3 ∨ c > 5 then false
  else if side = ['w'] then decide (7 ≤ r ∧ r ≤ 9)
  else decide (0 ≤ r ∧ r ≤ 2)

/-- xiangqi.ts `ownHalf`. -/
def ownHalf (r : Int) (side : Side) : Bool :=
  if side = ['w'] then decide (r ≥ 5) else decide (r ≤ 4)

/-- The side-relative character the two inline `turn === 'w' ? 'b' : 'w'`
ternaries of the source compute. -/
def opponentOf (s : Side) : Side := if s = ['w'] then ['b'] else ['w']

/-- The fourteen piece letters of the external format. -/
def isPieceChar (c : Char) : Prop :=
  c ∈ ['r', 'n', 'b', 'a', 'k', 'c', 'p', 'R', 'N', 'B', 'A', 'K', 'C', 'P']

instance : DecidablePred isPieceChar := fun c => by unfold isPieceChar; infer_instance

/-- The single-character numeric value `parseInt` yields on a digit. -/
def charDigit? (c : Char) : Option Nat :=
  if '0' ≤ c ∧ c ≤ '9' then some (c.toNat - 48) else none

/-- fen.ts `parseFen` rank loop body: digits expand to runs of empties,
any other character is pushed as a piece. -/
def parseRank (rank : List Char) : List (Option Char) :=
  rank.flatMap fun ch =>
    if '1' ≤ ch ∧ ch ≤ '9' then List.replicate (ch.toNat - 48) none else [some ch]

/-- String.prototype.split with a single-character separator. -/
def splitOnChar (sep : Char) : List Char → List (List Char)
  | [] => [[]]
  | c :: t =>
    match splitOnChar sep t with
    | [] => []
    | h :: r => if c = sep then [] :: h :: r else (c :: h) :: r

/-- Array.prototype.join with a single-character separator. -/
def joinSep (sep : Char) : List (List Char) → List Char
  | [] => []
  | [l] => l
  | l :: l' :: ls => l ++ sep :: joinSep sep (l' :: ls)

/-- fen.ts `parseFen`: split on spaces, split the first part on '/', expand
each rank, and take the second part as the side to move (`|| 'w'` default,
the cast itself unchecked). -/
def parseFen (fen : List Char) : Position :=
  let parts := splitOnChar ' ' fen
  let ranks := splitOnChar '/' (parts.headD [])
  { board := ranks.map parseRank
    turn :=
      match parts.get? 1 with
      | some t => if t = [] then ['w'] else t
      | none => ['w'] }

/-- The `if (empty > 0) rank += empty` flush of `toFen` (number-to-string). -/
def flushE (e : Nat) : List Char := if e > 0 then Nat.toDigits 10 e else []

/-- One iteration of the `toFen` cell loop: state is (emitted text, pending
empty count). -/
def encodeRankStep (acc : List Char × Nat) (cell : Option Char) : List Char × Nat :=
  match cell with
  | none => (acc.1, acc.2 + 1)
  | some c => (acc.1 ++ flushE acc.2 ++ [c], 0)

/-- fen.ts `toFen` per-rank encoding: run-length empties plus piece letters. -/
def encodeRank (row : List (Option Char)) : List Char :=
  let p := row.foldl encodeRankStep ([], 0)
  p.1 ++ flushE p.2

/-- fen.ts `toFen`: ranks joined by '/', then the turn and the constant
move-counter tail. -/
def toFen (pos : Position) : List Char :=
  joinSep '/' (pos.board.map encodeRank) ++ ' ' :: (pos.turn ++ (" - - 0 1").data)

/-- fen.ts `uciToSquare`. On a well-formed token (file letter plus digit) this
matches the source exactly; a malformed token faults in the source
(`NaN`/`-1` indexing) and is modelled by the same out-of-range sentinels
`indexOf`-style `-1` and row `-1`. -/
def uciToSquare (u : List Char) : Square :=
  { col :=
      match u.get? 0 with
      | some ch =>
        match ("abcdefghi").data.findIdx? (· = ch) with
        | some i => (i : Int)
        | none => -1
      | none => -1
    row :=
      match u.get? 1 with
      | some ch =>
        match charDigit? ch with
        | some d => 9 - (d : Int)
        | none => -1
      | none => -1 }

/-- fen.ts `parseUciMove`. -/
def parseUciMove (move : List Char) : Square × Square :=
  (uciToSquare (move.take 2), uciToSquare (move.drop 2 |>.take 2))

/-- fen.ts `applyMove`: move the piece and flip the turn. -/
def applyMove (pos : Position) (f t : Square) : Position :=
  { board := boardMovePiece pos.board f t
    turn := opponentOf pos.turn }

/-- fen.ts `STARTING_FEN`. -/
def STARTING_FEN : List Char :=
  ("rnbakabnr/9/1c5c1/p1p1p1p1p/9/9/P1P1P1P1P/1C5C1/9/RNBAKABNR w - - 0 1").data

/-- One chariot ray of `generatePieceMoves` (`type === 'r'`): the
`for (i = 1; i < 10)` loop for one direction, fuel = remaining iterations,
(r, c) = the square of the previous iteration. -/
def rookLoop (b : Board) (side : Side) (dr dc : Int) : Nat → Int → Int → List Square
  | 0, _, _ => []
  | fuel + 1, r, c =>
    let nr := r + dr
    let nc := c + dc
    if inBounds nr nc then
      match bget b nr nc with
      | none => ⟨nr, nc⟩ :: rookLoop b side dr dc fuel nr nc
      | some q => if pieceColor q ≠ side then [⟨nr, nc⟩] else []
    else []

/-- One cannon ray of `generatePieceMoves` (`type === 'c'`): same loop with
the `jumped` screen flag. -/
def cannonLoop (b : Board) (side : Side) (dr dc : Int) :
    Nat → Int → Int → Bool → List Square
  | 0, _, _, _ => []
  | fuel + 1, r, c, jumped =>
    let nr := r + dr
    let nc := c + dc
    if inBounds nr nc then
      if jumped then
        match bget b nr nc with
        | none => cannonLoop b side dr dc fuel nr nc true
        | some q => if pieceColor q ≠ side then [⟨nr, nc⟩] else []
      else
        match bget b nr nc with
        | none => ⟨nr, nc⟩ :: cannonLoop b side dr dc fuel nr nc false
        | some _ => cannonLoop b side dr dc fuel nr nc true
    else []

/-- The flying-general scan of `generatePieceMoves`: walk one file direction,
stop at the first occupied square, capture it only if it is the opposing
general.  The source loop runs while `0 <= r < 10`, at most 10 iterations. -/
def flyLoop (b : Board) (opponentKing : Char) (col dir : Int) : Nat → Int → List Square
  | 0, _ => []
  | fuel + 1, r =>
    if 0 ≤ r ∧ r < 10 then
      match bget b r col with
      | some q => if q = opponentKing then [⟨r, col⟩] else []
      | none => flyLoop b opponentKing col dir fuel (r + dir)
    else []

/-- xiangqi.ts `canMoveTo` closure. -/
def canMoveTo (b : Board) (side : Side) (r c : Int) : Bool :=
  if inBounds r c then
    match bget b r c with
    | some q => decide (pieceColor q ≠ side)
    | none => true
  else false

/-- The four orthogonal directions, in source order. -/
def orthDirs : List (Int × Int) := [(0, 1), (0, -1), (1, 0), (-1, 0)]

/-- The knight offset table of the source, in order. -/
def knightOffsets : List (Int × Int × Int × Int) :=
  [(-2, -1, -1, 0), (-2, 1, -1, 0),
   (2, -1, 1, 0), (2, 1, 1, 0),
   (-1, -2, 0, -1), (-1, 2, 0, 1),
   (1, -2, 0, -1), (1, 2, 0, 1)]

/-- The elephant offset table of the source, in order. -/
def elephantOffsets : List (Int × Int × Int × Int) :=
  [(-2, -2, -1, -1), (-2, 2, -1, 1),
   (2, -2, 1, -1), (2, 2, 1, 1)]

/-- The diagonal one-step directions (advisor), in source order. -/
def diagDirs : List (Int × Int) := [(-1, -1), (-1, 1), (1, -1), (1, 1)]

/-- xiangqi.ts `generatePieceMoves`: pseudo-moves of one piece, in the exact
push order of the source. -/
def generatePieceMoves (b : Board) (row col : Int) (piece : Char) : List Square :=
  let side := pieceColor piece
  let type := piece.toLower
  if type = 'r' then
    orthDirs.flatMap fun d => rookLoop b side d.1 d.2 9 row col
  else if type = 'c' then
    orthDirs.flatMap fun d => cannonLoop b side d.1 d.2 9 row col false
  else if type = 'n' then
    knightOffsets.flatMap fun o =>
      let br := row + o.2.2.1
      let bc := col + o.2.2.2
      if ¬ (inBounds br bc) ∨ bget b br bc ≠ none then []
      else
        let nr := row + o.1
        let nc := col + o.2.1
        if canMoveTo b side nr nc then [⟨nr, nc⟩] else []
  else if type = 'b' then
    elephantOffsets.flatMap fun o =>
      let br := row + o.2.2.1
      let bc := col + o.2.2.2
      if ¬ (inBounds br bc) ∨ bget b br bc ≠ none then []
      else
        let nr := row + o.1
        let nc := col + o.2.1
        if ¬ (inBounds nr nc) then []
        else if ¬ (ownHalf nr side) then []
        else if canMoveTo b side nr nc then [⟨nr, nc⟩] else []
  else if type = 'a' then
    diagDirs.flatMap fun d =>
      let nr := row + d.1
      let nc := col + d.2
      if ¬ (inPalace nr nc side) then []
      else if canMoveTo b side nr nc then [⟨nr, nc⟩] else []
  else if type = 'k' then
    (orthDirs.flatMap fun d =>
      let nr := row + d.1
      let nc := col + d.2
      if ¬ (inPalace nr nc side) then []
      else if canMoveTo b side nr nc then [⟨nr, nc⟩] else []) ++
    (let opponentKing := if side = ['w'] then 'k' else 'K'
     [(-1 : Int), 1].flatMap fun dir => flyLoop b opponentKing col dir 10 (row + dir))
  else if type = 'p' then
    if side = ['w'] then
      (if canMoveTo b side (row - 1) col then [⟨row - 1, col⟩] else []) ++
      (if ¬ (ownHalf row side) then
        (if canMoveTo b side row (col - 1) then [⟨row, col - 1⟩] else []) ++
        (if canMoveTo b side row (col + 1) then [⟨row, col + 1⟩] else [])
      else [])
    else
      (if canMoveTo b side (row + 1) col then [⟨row + 1, col⟩] else []) ++
      (if ¬ (ownHalf row side) then
        (if canMoveTo b side row (col - 1) then [⟨row, col - 1⟩] else []) ++
        (if canMoveTo b side row (col + 1) then [⟨row, col + 1⟩] else [])
      else [])
  else []

/-- The row-major square scan order of the nested `for` loops of the source. -/
def allSquares : List (Nat × Nat) :=
  (List.range 10).flatMap fun r => (List.range 9).map fun c => (r, c)

/-- The king character `findKing` searches for. -/
def kingChar (side : Side) : Char := if side = ['w'] then 'K' else 'k'

/-- xiangqi.ts `findKing`: first square (row-major) holding the side's
general. -/
def findKing (b : Board) (side : Side) : Option Square :=
  (allSquares.find? fun rc => decide (bget b (rc.1 : Int) (rc.2 : Int) = some (kingChar side))).map
    fun rc => ⟨(rc.1 : Int), (rc.2 : Int)⟩

/-- xiangqi.ts `isUnderAttack`: some piece of `byWhom` has `sq` among its
pseudo-moves. -/
def isUnderAttack (b : Board) (sq : Square) (byWhom : Side) : Bool :=
  allSquares.any fun rc =>
    match bget b (rc.1 : Int) (rc.2 : Int) with
    | none => false
    | some p =>
      decide (pieceColor p = byWhom) &&
        (generatePieceMoves b (rc.1 : Int) (rc.2 : Int) p).any fun m =>
          decide (m.row = sq.row) && decide (m.col = sq.col)

/-- xiangqi.ts `isInCheck`. -/
def isInCheck (pos : Position) : Bool :=
  match findKing pos.board pos.turn with
  | none => false
  | some kingSq => isUnderAttack pos.board kingSq (opponentOf pos.turn)

/-- A move, `from`/`to` squares (field `from` is a Lean keyword, hence
`fromSq`/`toSq`). -/
structure Move where
  fromSq : Square
  toSq : Square
deriving DecidableEq, Repr

/-- The simulate-and-filter step of `generateLegalMoves` for one candidate
target of the piece on (r, c). -/
def legalFilter (pos : Position) (r c : Nat) (tgt : Square) : Option Move :=
  let newBoard := boardMovePiece pos.board ⟨(r : Int), (c : Int)⟩ tgt
  match findKing newBoard pos.turn with
  | none => none
  | some kingSq =>
    if isUnderAttack newBoard kingSq (opponentOf pos.turn) then none
    else some ⟨⟨(r : Int), (c : Int)⟩, tgt⟩

/-- The body of the square scan of `generateLegalMoves`. -/
def genAt (pos : Position) (r c : Nat) : List Move :=
  match bget pos.board (r : Int) (c : Int) with
  | none => []
  | some p =>
    if pieceColor p = pos.turn then
      (generatePieceMoves pos.board (r : Int) (c : Int) p).filterMap (legalFilter pos r c)
    else []

/-- xiangqi.ts `generateLegalMoves`: pseudo-moves of every piece of the side
to move, kept only when the mover's general is found and not attacked on the
simulated board. -/
def generateLegalMoves (pos : Position) : List Move :=
  allSquares.flatMap fun rc => genAt pos rc.1 rc.2

/-- xiangqi.ts `isLegalMove`. -/
def isLegalMove (pos : Position) (f t : Square) : Bool :=
  (generateLegalMoves pos).any fun m =>
    decide (m.fromSq.row = f.row) && decide (m.fromSq.col = f.col) &&
    decide (m.toSq.row = t.row) && decide (m.toSq.col = t.col)

/-- xiangqi.ts `isCheckmate`. -/
def isCheckmate (pos : Position) : Bool :=
  if ¬ (isInCheck pos) then false
  else decide ((generateLegalMoves pos).length = 0)

/-- xiangqi.ts `isStalemate`. -/
def isStalemate (pos : Position) : Bool :=
  if isInCheck pos then false
  else decide ((generateLegalMoves pos).length = 0)

/-- notation.ts `PIECE_NAMES` lookup, with the `|| '?'` fallback. -/
def PIECE_NAMES (p : Char) : List Char :=
  if p = 'R' ∨ p = 'r' then ['车']
  else if p = 'N' ∨ p = 'n' then ['马']
  else if p = 'B' then ['相']
  else if p = 'b' then ['象']
  else if p = 'A' then ['仕']
  else if p = 'a' then ['士']
  else if p = 'K' then ['帅']
  else if p = 'k' then ['将']
  else if p = 'C' ∨ p = 'c' then ['炮']
  else if p = 'P' then ['兵']
  else if p = 'p' then ['卒']
  else ['?']

/-- notation.ts `RED_DIGITS` (index 0 is the empty string). -/
def RED_DIGITS : List (List Char) :=
  [[], ['一'], ['二'], ['三'], ['四'], ['五'], ['六'], ['七'], ['八'], ['九']]

/-- notation.ts `BLACK_DIGITS`. -/
def BLACK_DIGITS : List (List Char) :=
  [[], ['1'], ['2'], ['3'], ['4'], ['5'], ['6'], ['7'], ['8'], ['9']]

/-- The body of notation.ts `uciToChineseNotation` after the four token
characters are read (`charCodeAt - 97` for files, `parseInt` for ranks).
Digit-table indexing uses `getD _ []`, which agrees with the source on every
in-range index (all indices are in range for genuine board coordinates). -/
def uciNotationCore (pos : Position) (uci : List Char)
    (fromCol fromRank toCol toRank : Int) : List Char :=
  let fromRow := 9 - fromRank
  let toRow := 9 - toRank
  match bget pos.board fromRow fromCol with
  | none => uci
  | some piece =>
    let isRed := isRedPiece piece
    let digits := if isRed then RED_DIGITS else BLACK_DIGITS
    let pieceName := PIECE_NAMES piece
    let colDisplay : Int := if isRed then 9 - fromCol else fromCol + 1
    let pType := piece.toLower
    let actionTarget : Char × List Char :=
      if fromRow = toRow then
        ('平', digits.getD (if isRed then 9 - toCol else toCol + 1).toNat [])
      else
        let forward := if isRed then toRow < fromRow else toRow > fromRow
        let action := if forward then '进' else '退'
        if pType = 'r' ∨ pType = 'c' ∨ pType = 'p' ∨ pType = 'k' then
          (action, digits.getD (toRow - fromRow).natAbs [])
        else
          (action, digits.getD (if isRed then 9 - toCol else toCol + 1).toNat [])
    pieceName ++ digits.getD colDisplay.toNat [] ++
      actionTarget.1 :: actionTarget.2

/-- notation.ts `uciToChineseNotation`.  A token whose rank characters are not
digits makes the source fault on `NaN` row indexing; that unreachable path is
modelled by returning the token unchanged (no theorem touches it). -/
def uciToChineseNotation (uci : List Char) (fen : List Char) : List Char :=
  let pos := parseFen fen
  match uci with
  | c0 :: c1 :: c2 :: c3 :: _ =>
    match charDigit? c1, charDigit? c3 with
    | some fromRank, some toRank =>
      uciNotationCore pos uci ((c0.toNat : Int) - 97) (fromRank : Int)
        ((c2.toNat : Int) - 97) (toRank : Int)
    | _, _ => uci
  | _ => uci

/-- useGame.ts `MoveRecord`. -/
structure MoveRecord where
  uci : List Char
  fen : List Char
deriving DecidableEq, Repr

/-- The replay loop body of useGame.ts `loadMoves`. -/
def loadMovesStep (acc : Position × List MoveRecord) (m : List Char) :
    Position × List MoveRecord :=
  let ft := parseUciMove m
  let pos := applyMove acc.1 ft.1 ft.2
  (pos, acc.2 ++ [{ uci := m, fen := toFen pos }])

/-- useGame.ts `loadMoves`: replay the move list from the base FEN, returning
the final position and the rebuilt history. -/
def loadMoves (moves : List (List Char)) (fen : List Char) :
    Position × List MoveRecord :=
  moves.foldl loadMovesStep (parseFen fen, [])

/-- Modelled from the spec: an analysis event of the streaming protocol
(the backend dispatcher that produces them is not under src/; only the
frontend WebSocket client is).  `progress` carries depth, score and principal
variation; `result` carries the best move. -/
inductive AnalysisEvent where
  | progress (depth : Nat) (scoreCp : Int) (pv : List (List Char))
  | result (bestMove : List Char)
deriving DecidableEq, Repr

/-- Modelled from the spec: one step of a dispatcher timeline — a client
submits the request with the given sequence number, or the engine side emits
an event produced by the request with that sequence number. -/
inductive DispatchAction where
  | submit (seq : Nat)
  | emit (seq : Nat) (ev : AnalysisEvent)
deriving DecidableEq, Repr

/-- Modelled from the spec: the client-facing relay of the Analysis
Dispatcher.  "each request owns a monotonically increasing sequence number;
events are tagged with the sequence number of the request that produced them;
the client-facing relay drops any event whose sequence number is not the
current highest."  `cur` is the highest sequence number submitted so far. -/
def relay : List DispatchAction → Nat → List (Nat × AnalysisEvent)
  | [], _ => []
  | DispatchAction.submit s :: rest, cur => relay rest (max cur s)
  | DispatchAction.emit s e :: rest, cur =>
    if s = cur then (s, e) :: relay rest cur else relay rest cur

/-- Modelled from the spec: the client-visible event stream of one dispatcher
channel, starting before any request was submitted. -/
def clientStream (trace : List DispatchAction) : List (Nat × AnalysisEvent) :=
  relay trace 0

/-! ### Claim C3: checkmate / stalemate derivation -/

/-- C3: `isCheckmate` implies in-check with no legal moves, `isStalemate`
implies not-in-check with no legal moves, and the two predicates are never
both true. -/
theorem checkmate_stalemate_props (pos : Position) :
    (isCheckmate pos = true → isInCheck pos = true ∧ generateLegalMoves pos = []) ∧
    (isStalemate pos = true → isInCheck pos = false ∧ generateLegalMoves pos = []) ∧
    (isCheckmate pos && isStalemate pos) = false := by
  unfold isCheckmate isStalemate
  rcases h : isInCheck pos <;> simp [h, List.length_eq_zero]

theorem checkmate_stalemate_props_witness :
    (isInCheck (parseFen (("R3k4/R8/9/9/9/9/9/9/9/9 b - - 0 1").data)) = true ∧
      generateLegalMoves (parseFen (("R3k4/R8/9/9/9/9/9/9/9/9 b - - 0 1").data)) = []) ∧
    (isInCheck (parseFen (("4k4/R8/9/9/9/3R1R3/9/9/9/9 b - - 0 1").data)) = false ∧
      generateLegalMoves (parseFen (("4k4/R8/9/9/9/3R1R3/9/9/9/9 b - - 0 1").data)) = []) :=
  ⟨(checkmate_stalemate_props _).1 (by decide),
   (checkmate_stalemate_props _).2.1 (by decide)⟩

/-! ### Claim C4: the decoder performs no validation -/

/-- The total cell width a rank's text describes (digits as run lengths,
any other character as one column). -/
def rankWidth (rank : List Char) : Nat :=
  (rank.map fun ch => if '1' ≤ ch ∧ ch ≤ '9' then ch.toNat - 48 else 1).sum

theorem parseRank_length (rank : List Char) : (parseRank rank).length = rankWidth rank := by
  unfold parseRank rankWidth
  induction rank with
  | nil => rfl
  | cons ch t ih =>
    rw [List.flatMap_cons, List.length_append, ih, List.map_cons, List.sum_cons]
    split <;> simp

/-- C4 counterexample: the claim says a text whose placement section is not
10 ranks of 9 columns is rejected with `MalformedPositionError`; the source
`parseFen` has no validation or error path at all and returns the
(malformed) one-rank, three-column Position for the input "3 w". -/
theorem parseFen_accepts_malformed :
    parseFen (("3 w").data) = { board := [[none, none, none]], turn := ['w'] } ∧
    ¬ boardWF (parseFen (("3 w").data)).board := by
  constructor
  · decide
  · decide

/-- C4 amended: `parseFen` never fails; for every input it returns a Position
whose board has exactly one row per '/'-separated rank of the first
space-separated token, each of exactly the width that rank's text describes —
no grid-shape or side-token validation is applied. -/
theorem parseFen_shape (fen : List Char) :
    (parseFen fen).board.length =
      (splitOnChar '/' ((splitOnChar ' ' fen).headD [])).length ∧
    (parseFen fen).board.map List.length =
      (splitOnChar '/' ((splitOnChar ' ' fen).headD [])).map rankWidth := by
  refine ⟨by simp [parseFen], ?_⟩
  show (List.map parseRank _).map List.length = _
  rw [List.map_map]
  exact List.map_congr_left fun r _ => parseRank_length r

/-! ### Claim C7: loadMoves replays unconditionally -/

/-- A syntactically well-formed machine move token (file a–i, rank digit,
twice); on these the source's `parseUciMove`/`applyMove` path is total. -/
def validUciToken : List Char → Bool
  | c0 :: c1 :: c2 :: c3 :: [] =>
    (decide ('a' ≤ c0) && decide (c0 ≤ 'i')) && (decide ('0' ≤ c1) && decide (c1 ≤ '9')) &&
    (decide ('a' ≤ c2) && decide (c2 ≤ 'i')) && (decide ('0' ≤ c3) && decide (c3 ≤ '9'))
  | _ => false

theorem loadMoves_foldl_spec (moves : List (List Char)) :
    ∀ (p : Position) (h : List MoveRecord),
      ((moves.foldl loadMovesStep (p, h)).2).map MoveRecord.uci =
        h.map MoveRecord.uci ++ moves := by
  induction moves with
  | nil => intro p h; simp
  | cons m t ih =>
    intro p h
    rw [List.foldl_cons, ih]
    simp [loadMovesStep]

/-- C7 counterexample: the claim says `loadMoves` fails at the first illegal
move and surfaces only the legal prefix; the source applies every move
unconditionally.  Replaying the single illegal move e0e2 (a two-step general
move) from a two-general position yields a history that contains that move,
although it is not legal in the starting position. -/
theorem loadMoves_applies_illegal :
    ((loadMoves [('e' :: '0' :: 'e' :: '2' :: [])]
        (("4k4/9/9/9/9/9/9/9/9/4K4 w - - 0 1").data)).2).map MoveRecord.uci =
      [('e' :: '0' :: 'e' :: '2' :: [])] ∧
    isLegalMove (parseFen (("4k4/9/9/9/9/9/9/9/9/4K4 w - - 0 1").data))
      ⟨9, 4⟩ ⟨7, 4⟩ = false := by
  constructor
  · decide
  · decide

/-- C7 amended: for every sequence of well-formed move tokens, `loadMoves`
performs no legality check: it applies every move unconditionally and the
rebuilt history records the entire input sequence (never a proper prefix). -/
theorem loadMoves_replays_all (moves : List (List Char)) (fen : List Char)
    (_hvalid : ∀ m ∈ moves, validUciToken m = true) :
    ((loadMoves moves fen).2).map MoveRecord.uci = moves ∧
    (loadMoves moves fen).2.length = moves.length := by
  have h := loadMoves_foldl_spec moves (parseFen fen) []
  simp only [List.map_nil, List.nil_append] at h
  refine ⟨h, ?_⟩
  have := congrArg List.length h
  simpa using this

theorem loadMoves_replays_all_witness :
    (∀ m ∈ [('e' :: '0' :: 'e' :: '2' :: [])], validUciToken m = true) ∧
    ((loadMoves [('e' :: '0' :: 'e' :: '2' :: [])]
        (("4k4/9/9/9/9/9/9/9/9/4K4 w - - 0 1").data)).2).map MoveRecord.uci =
      [('e' :: '0' :: 'e' :: '2' :: [])] :=
  ⟨by decide,
   (loadMoves_replays_all [('e' :: '0' :: 'e' :: '2' :: [])]
      (("4k4/9/9/9/9/9/9/9/9/4K4 w - - 0 1").data) (by decide)).1⟩

/-! ### Claim C9: dispatcher sequencing (spec-modelled) -/

theorem relay_tag_ge (trace : List DispatchAction) :
    ∀ (cur : Nat) (x : Nat × AnalysisEvent), x ∈ relay trace cur → cur ≤ x.1 := by
  induction trace with
  | nil => intro cur x hx; simp [relay] at hx
  | cons a rest ih =>
    intro cur x hx
    cases a with
    | submit s =>
      exact le_trans (Nat.le_max_left cur s) (ih (max cur s) x hx)
    | emit s e =>
      rw [relay] at hx
      split at hx
      · rcases List.mem_cons.mp hx with h | h
        · subst h; simpa using Nat.le_of_eq (by omega)
        · exact ih cur x h
      · exact ih cur x hx

theorem relay_monotone (trace : List DispatchAction) :
    ∀ (cur : Nat) (i j : Nat) (x y : Nat × AnalysisEvent), i ≤ j →
      (relay trace cur).get? i = some x → (relay trace cur).get? j = some y →
      x.1 ≤ y.1 := by
  induction trace with
  | nil => intro cur i j x y _ hx _; simp [relay] at hx
  | cons a rest ih =>
    intro cur i j x y hij hx hy
    cases a with
    | submit s => exact ih (max cur s) i j x y hij hx hy
    | emit s e =>
      by_cases hs : s = cur
      · subst hs
        rw [relay, if_pos rfl] at hx hy
        cases i with
        | zero =>
          rw [List.get?_cons_zero, Option.some.injEq] at hx
          cases j with
          | zero =>
            rw [List.get?_cons_zero, Option.some.injEq] at hy
            rw [← hx, ← hy]
          | succ j' =>
            rw [List.get?_cons_succ] at hy
            have hge := relay_tag_ge rest s y (List.get?_mem hy)
            rw [← hx]
            exact hge
        | succ i' =>
          cases j with
          | zero => omega
          | succ j' =>
            rw [List.get?_cons_succ] at hx hy
            exact ih s i' j' x y (by omega) hx hy
      · rw [relay, if_neg hs] at hx hy
        exact ih cur i j x y hij hx hy

/-- C9 (modelled from the spec; the backend dispatcher is not under src/):
in the client-visible event stream of one dispatcher channel, sequence tags
never decrease, so once the first event of a later request R2 appears, no
Progress or Result event of an earlier request R1 (strictly smaller sequence
number) ever follows it. -/
theorem dispatcher_no_stale_events (trace : List DispatchAction) (i j : Nat)
    (x y : Nat × AnalysisEvent) (hij : i ≤ j)
    (hx : (clientStream trace).get? i = some x)
    (hy : (clientStream trace).get? j = some y) :
    x.1 ≤ y.1 :=
  relay_monotone trace 0 i j x y hij hx hy

theorem dispatcher_no_stale_events_witness :
    ((0 : Nat) ≤ 1) ∧
    (clientStream
        [DispatchAction.submit 1,
         DispatchAction.emit 1 (AnalysisEvent.progress 5 20 []),
         DispatchAction.submit 2,
         DispatchAction.emit 1 (AnalysisEvent.progress 6 25 []),
         DispatchAction.emit 2 (AnalysisEvent.result (('e').toString.data))]).get? 0 =
      some (1, AnalysisEvent.progress 5 20 []) ∧
    (1 : Nat) ≤ 2 :=
  ⟨by decide, by decide,
   dispatcher_no_stale_events
     [DispatchAction.submit 1,
      DispatchAction.emit 1 (AnalysisEvent.progress 5 20 []),
      DispatchAction.submit 2,
      DispatchAction.emit 1 (AnalysisEvent.progress 6 25 []),
      DispatchAction.emit 2 (AnalysisEvent.result (('e').toString.data))]
     0 1 (1, AnalysisEvent.progress 5 20 [])
     (2, AnalysisEvent.result (('e').toString.data))
     (by decide) (by decide) (by decide)⟩

/-! ### Board access/update lemmas -/

theorem bget_neg (b : Board) (r c : Int) (h : ¬ (0 ≤ r ∧ 0 ≤ c)) :
    bget b r c = none := by
  unfold bget; rw [if_neg h]

theorem bset_guard_false (b : Board) (r c : Int) (v : Option Char)
    (h : ¬ (0 ≤ r ∧ 0 ≤ c)) : bset b r c v = b := by
  unfold bset; rw [if_neg h]

theorem bset_row_none (b : Board) (r c : Int) (v : Option Char)
    (h : b[r.toNat]? = none) : bset b r c v = b := by
  unfold bset; split
  · simp [h]
  · rfl

theorem bget_bset_of_row_ne (b : Board) (r c : Int) (v : Option Char) (r' c' : Int)
    (hr : r.toNat ≠ r'.toNat) : bget (bset b r c v) r' c' = bget b r' c' := by
  unfold bset
  split
  · cases hrow : b[r.toNat]? with
    | none => simp [hrow]
    | some row =>
      simp only [hrow]
      unfold bget
      by_cases hg' : 0 ≤ r' ∧ 0 ≤ c'
      · rw [if_pos hg', if_pos hg', List.getElem?_set_ne hr]
      · rw [if_neg hg', if_neg hg']
  · rfl

theorem bget_bset_of_col_ne (b : Board) (r c : Int) (v : Option Char) (r' c' : Int)
    (hc : c.toNat ≠ c'.toNat) : bget (bset b r c v) r' c' = bget b r' c' := by
  unfold bset
  split
  · cases hrow : b[r.toNat]? with
    | none => simp [hrow]
    | some row =>
      simp only [hrow]
      unfold bget
      by_cases hg' : 0 ≤ r' ∧ 0 ≤ c'
      · rw [if_pos hg', if_pos hg']
        by_cases hr : r.toNat = r'.toNat
        · rw [← hr, List.getElem?_set_self', hrow]
          simp only [Option.map_eq_map, Option.map_some', Option.some_bind,
            Function.const_apply]
          rw [List.getElem?_set_ne hc]
        · rw [List.getElem?_set_ne hr]
      · rw [if_neg hg', if_neg hg']
  · rfl

theorem bget_bset_self (b : Board) (r c : Int) (v : Option Char)
    (hr : 0 ≤ r) (hc : 0 ≤ c) (row : List (Option Char))
    (hrow : b[r.toNat]? = some row) (hlen : c.toNat < row.length) :
    bget (bset b r c v) r c = v := by
  unfold bset bget
  rw [if_pos ⟨hr, hc⟩]
  simp only [hrow, if_pos (And.intro hr hc), List.getElem?_set_self', Option.map_eq_map,
    Option.map_some', Function.const_apply, Option.some_bind]
  rw [List.getElem?_eq_getElem hlen]
  simp

theorem bget_bset_cases (b : Board) (r c : Int) (v : Option Char) (r' c' : Int) :
    bget (bset b r c v) r' c' = v ∨ bget (bset b r c v) r' c' = bget b r' c' := by
  by_cases hg : 0 ≤ r ∧ 0 ≤ c
  · by_cases hr : r.toNat = r'.toNat
    · by_cases hc : c.toNat = c'.toNat
      · cases hrow : b[r.toNat]? with
        | none => right; rw [bset_row_none b r c v hrow]
        | some row =>
          by_cases hg' : 0 ≤ r' ∧ 0 ≤ c'
          · have hbeq : ∀ bb : Board, bget bb r' c' = bget bb r c := by
              intro bb
              unfold bget
              rw [if_pos hg', if_pos hg, ← hr, ← hc]
            by_cases hlen : c.toNat < row.length
            · left
              rw [hbeq, bget_bset_self b r c v hg.1 hg.2 row hrow hlen]
            · right
              rw [hbeq, hbeq]
              unfold bset bget
              rw [if_pos hg, if_pos hg]
              simp only [hrow, List.getElem?_set_self', Option.map_eq_map,
                Option.map_some', Function.const_apply, Option.some_bind]
              rw [if_pos hg, List.getElem?_eq_none (le_of_not_lt hlen)]
              simp
          · right
            rw [bget_neg _ r' c' hg', bget_neg b r' c' hg']
      · right; exact bget_bset_of_col_ne b r c v r' c' hc
    · right; exact bget_bset_of_row_ne b r c v r' c' hr
  · right; rw [bset_guard_false b r c v hg]

theorem bget_boardMovePiece_subset (b : Board) (f t : Square) (r' c' : Int) (p : Char)
    (h : bget (boardMovePiece b f t) r' c' = some p) :
    bget b f.row f.col = some p ∨ bget b r' c' = some p := by
  unfold boardMovePiece at h
  rcases bget_bset_cases (bset b t.row t.col (bget b f.row f.col)) f.row f.col none r' c'
    with h1 | h1
  · rw [h1] at h; cases h
  · rw [h1] at h
    rcases bget_bset_cases b t.row t.col (bget b f.row f.col) r' c' with h2 | h2
    · rw [h2] at h; left; exact h
    · rw [h2] at h; right; exact h

theorem mem_allSquares_iff (r c : Nat) : (r, c) ∈ allSquares ↔ r < 10 ∧ c < 9 := by
  unfold allSquares
  rw [List.mem_flatMap]
  constructor
  · rintro ⟨a, ha, hmem⟩
    rw [List.mem_map] at hmem
    obtain ⟨c', hc', heq⟩ := hmem
    cases heq
    exact ⟨List.mem_range.mp ha, List.mem_range.mp hc'⟩
  · rintro ⟨hr, hc⟩
    exact ⟨r, List.mem_range.mpr hr, List.mem_map.mpr ⟨c, List.mem_range.mpr hc, rfl⟩⟩

theorem allSquares_bounds (rc : Nat × Nat) (h : rc ∈ allSquares) :
    rc.1 < 10 ∧ rc.2 < 9 := by
  obtain ⟨r, c⟩ := rc
  exact (mem_allSquares_iff r c).mp h

/-! ### Claim C10: positions without the mover's general -/

theorem findKing_eq_none (b : Board) (side : Side)
    (hno : ∀ rc ∈ allSquares, bget b (rc.1 : Int) (rc.2 : Int) ≠ some (kingChar side)) :
    findKing b side = none := by
  unfold findKing
  rw [Option.map_eq_none', List.find?_eq_none]
  intro rc hrc
  simpa using hno rc hrc

theorem isUnderAttack_eq_false (b : Board) (sq : Square) (byWhom : Side)
    (hno : ∀ rc ∈ allSquares, ∀ p, bget b (rc.1 : Int) (rc.2 : Int) = some p →
      pieceColor p ≠ byWhom) :
    isUnderAttack b sq byWhom = false := by
  unfold isUnderAttack
  rw [List.any_eq_false]
  intro rc hrc
  cases hbg : bget b (rc.1 : Int) (rc.2 : Int) with
  | none => simp [hbg]
  | some p => simp [hbg, hno rc hrc p hbg]

/-- C10: when the side to move has no general on the board, `isInCheck` is
false, `generateLegalMoves` is empty (every candidate is dropped because the
mover's general cannot be found on the simulated board), hence `isStalemate`
is true and `isCheckmate` false. -/
theorem kingless_position_props (pos : Position)
    (_hwf : boardWF pos.board)
    (_hturn : pos.turn = ['w'] ∨ pos.turn = ['b'])
    (hno : ∀ (r : Fin 10) (c : Fin 9),
      bget pos.board ((r : Nat) : Int) ((c : Nat) : Int) ≠ some (kingChar pos.turn)) :
    isInCheck pos = false ∧ generateLegalMoves pos = [] ∧
    isStalemate pos = true ∧ isCheckmate pos = false := by
  have hno' : ∀ rc ∈ allSquares,
      bget pos.board (rc.1 : Int) (rc.2 : Int) ≠ some (kingChar pos.turn) := by
    intro rc hrc
    obtain ⟨h1, h2⟩ := allSquares_bounds rc hrc
    exact hno ⟨rc.1, h1⟩ ⟨rc.2, h2⟩
  have hfk : findKing pos.board pos.turn = none := findKing_eq_none _ _ hno'
  have hic : isInCheck pos = false := by
    unfold isInCheck
    rw [hfk]
  have hmoves : generateLegalMoves pos = [] := by
    unfold generateLegalMoves
    rw [List.flatMap_eq_nil_iff]
    intro rc hrc
    unfold genAt
    split
    · rfl
    · split
      · rw [List.filterMap_eq_nil_iff]
        intro tgt _
        unfold legalFilter
        have hfk2 :
            findKing (boardMovePiece pos.board ⟨(rc.1 : Int), (rc.2 : Int)⟩ tgt)
              pos.turn = none := by
          apply findKing_eq_none
          intro rc' hrc' hsome
          rcases bget_boardMovePiece_subset _ _ _ _ _ _ hsome with h | h
          · exact hno' rc hrc h
          · exact hno' rc' hrc' h
        simp only [hfk2]
      · rfl
  refine ⟨hic, hmoves, ?_, ?_⟩
  · unfold isStalemate
    rw [hic, hmoves]
    simp
  · unfold isCheckmate
    rw [hic]
    simp

theorem kingless_position_props_witness :
    isInCheck (parseFen (("4k4/9/9/9/9/9/9/9/9/9 w - - 0 1").data)) = false ∧
    generateLegalMoves (parseFen (("4k4/9/9/9/9/9/9/9/9/9 w - - 0 1").data)) = [] ∧
    isStalemate (parseFen (("4k4/9/9/9/9/9/9/9/9/9 w - - 0 1").data)) = true ∧
    isCheckmate (parseFen (("4k4/9/9/9/9/9/9/9/9/9 w - - 0 1").data)) = false :=
  kingless_position_props _ (by decide) (by decide) (by decide)

/-! ### Claim C1: legal moves never leave the mover's own general attacked -/

/-- C1: for every move kept by `generateLegalMoves`, on the board obtained by
applying it the mover's general (wherever `findKing` locates it) is not
attacked by any pseudo-move of the opposing side. -/
theorem generateLegalMoves_king_safe (pos : Position) (m : Move)
    (hm : m ∈ generateLegalMoves pos) (ksq : Square)
    (hk : findKing (boardMovePiece pos.board m.fromSq m.toSq) pos.turn = some ksq) :
    isUnderAttack (boardMovePiece pos.board m.fromSq m.toSq) ksq (opponentOf pos.turn)
      = false := by
  unfold generateLegalMoves at hm
  rw [List.mem_flatMap] at hm
  obtain ⟨rc, _hrc, hgen⟩ := hm
  unfold genAt at hgen
  split at hgen
  · cases hgen
  · split at hgen
    · rw [List.mem_filterMap] at hgen
      obtain ⟨tgt, _htgt, hf⟩ := hgen
      unfold legalFilter at hf
      cases hfk : findKing (boardMovePiece pos.board ⟨(rc.1 : Int), (rc.2 : Int)⟩ tgt)
          pos.turn with
      | none =>
        simp only [hfk] at hf
        cases hf
      | some kingSq =>
        simp only [hfk] at hf
        split at hf
        · cases hf
        · next hatt =>
          injection hf with hf
          subst hf
          dsimp only at hk
          rw [hfk] at hk
          injection hk with hk
          subst hk
          dsimp only
          simp only [Bool.not_eq_true] at hatt
          exact hatt
    · cases hgen

theorem generateLegalMoves_king_safe_witness :
    ((⟨⟨9, 4⟩, ⟨0, 4⟩⟩ : Move) ∈
      generateLegalMoves (parseFen (("4k4/9/9/9/9/9/9/9/9/4K4 w - - 0 1").data))) ∧
    findKing
      (boardMovePiece (parseFen (("4k4/9/9/9/9/9/9/9/9/4K4 w - - 0 1").data)).board
        ⟨9, 4⟩ ⟨0, 4⟩)
      (parseFen (("4k4/9/9/9/9/9/9/9/9/4K4 w - - 0 1").data)).turn = some ⟨0, 4⟩ ∧
    isUnderAttack
      (boardMovePiece (parseFen (("4k4/9/9/9/9/9/9/9/9/4K4 w - - 0 1").data)).board
        ⟨9, 4⟩ ⟨0, 4⟩)
      ⟨0, 4⟩
      (opponentOf (parseFen (("4k4/9/9/9/9/9/9/9/9/4K4 w - - 0 1").data)).turn) = false :=
  ⟨by decide, by decide,
   generateLegalMoves_king_safe _ ⟨⟨9, 4⟩, ⟨0, 4⟩⟩ (by decide) ⟨0, 4⟩ (by decide)⟩

/-! ### Claim C2: FEN round-trip -/

theorem splitOnChar_cons (sep c : Char) (t : List Char) :
    splitOnChar sep (c :: t) =
      match splitOnChar sep t with
      | [] => []
      | h :: r => if c = sep then [] :: h :: r else (c :: h) :: r := rfl

theorem splitOnChar_ne_nil (sep : Char) (l : List Char) : splitOnChar sep l ≠ [] := by
  induction l with
  | nil => simp [splitOnChar]
  | cons c t ih =>
    rw [splitOnChar_cons]
    cases h : splitOnChar sep t with
    | nil => exact absurd h ih
    | cons h' r =>
      show ¬ (if c = sep then [] :: h' :: r else (c :: h') :: r) = []
      split <;> simp

theorem splitOnChar_not_mem (sep : Char) (l : List Char) (h : sep ∉ l) :
    splitOnChar sep l = [l] := by
  induction l with
  | nil => rfl
  | cons c t ih =>
    have hcs : c ≠ sep := fun hc => h (hc ▸ List.mem_cons_self c t)
    have ht : sep ∉ t := fun hm => h (List.mem_cons_of_mem c hm)
    rw [splitOnChar_cons, ih ht]
    show (if c = sep then [] :: t :: [] else (c :: t) :: []) = [c :: t]
    rw [if_neg hcs]

theorem splitOnChar_append (sep : Char) (l1 l2 : List Char) (h : sep ∉ l1) :
    splitOnChar sep (l1 ++ sep :: l2) = l1 :: splitOnChar sep l2 := by
  induction l1 with
  | nil =>
    show splitOnChar sep (sep :: l2) = [] :: splitOnChar sep l2
    rw [splitOnChar_cons]
    cases hs : splitOnChar sep l2 with
    | nil => exact absurd hs (splitOnChar_ne_nil sep l2)
    | cons h' r =>
      show (if sep = sep then [] :: h' :: r else (sep :: h') :: r) = [] :: h' :: r
      rw [if_pos rfl]
  | cons c t ih =>
    have hcs : c ≠ sep := fun hc => h (hc ▸ List.mem_cons_self c t)
    have ht : sep ∉ t := fun hm => h (List.mem_cons_of_mem c hm)
    show splitOnChar sep (c :: (t ++ sep :: l2)) = (c :: t) :: splitOnChar sep l2
    rw [splitOnChar_cons, ih ht]
    show (if c = sep then [] :: t :: splitOnChar sep l2 else (c :: t) :: splitOnChar sep l2)
      = (c :: t) :: splitOnChar sep l2
    rw [if_neg hcs]

theorem mem_joinSep (sep : Char) (ls : List (List Char)) (ch : Char)
    (h : ch ∈ joinSep sep ls) : ch = sep ∨ ∃ l ∈ ls, ch ∈ l := by
  induction ls with
  | nil => cases h
  | cons l rest ih =>
    cases rest with
    | nil =>
      right
      exact ⟨l, List.mem_cons_self _ _, h⟩
    | cons l' rest' =>
      rw [show joinSep sep (l :: l' :: rest') = l ++ sep :: joinSep sep (l' :: rest')
        from rfl] at h
      rcases List.mem_append.mp h with h1 | h1
      · right; exact ⟨l, List.mem_cons_self _ _, h1⟩
      · rcases List.mem_cons.mp h1 with h2 | h2
        · left; exact h2
        · rcases ih h2 with h3 | ⟨l0, hl0, hch⟩
          · left; exact h3
          · right; exact ⟨l0, List.mem_cons_of_mem _ hl0, hch⟩

theorem splitOnChar_joinSep (sep : Char) (ls : List (List Char))
    (h : ∀ l ∈ ls, sep ∉ l) (hne : ls ≠ []) :
    splitOnChar sep (joinSep sep ls) = ls := by
  induction ls with
  | nil => exact absurd rfl hne
  | cons l rest ih =>
    cases rest with
    | nil => exact splitOnChar_not_mem sep l (h l (List.mem_cons_self _ _))
    | cons l' rest' =>
      rw [show joinSep sep (l :: l' :: rest') = l ++ sep :: joinSep sep (l' :: rest')
        from rfl]
      rw [splitOnChar_append sep l _ (h l (List.mem_cons_self _ _))]
      rw [ih (fun x hx => h x (List.mem_cons_of_mem _ hx)) (by simp)]

/-- Recursive characterisation of the `toFen` cell loop: the encoding of the
rest of a row given `e` pending empties. -/
def encAux : Nat → List (Option Char) → List Char
  | e, [] => flushE e
  | e, none :: t => encAux (e + 1) t
  | e, some c :: t => flushE e ++ c :: encAux 0 t

theorem foldl_encodeRankStep (row : List (Option Char)) :
    ∀ (acc : List Char) (e : Nat),
      (row.foldl encodeRankStep (acc, e)).1 ++ flushE (row.foldl encodeRankStep (acc, e)).2
        = acc ++ encAux e row := by
  induction row with
  | nil => intro acc e; rfl
  | cons cell t ih =>
    intro acc e
    cases cell with
    | none =>
      rw [List.foldl_cons]
      exact ih acc (e + 1)
    | some c =>
      rw [List.foldl_cons,
        show encodeRankStep (acc, e) (some c) = (acc ++ flushE e ++ [c], 0) from rfl,
        ih (acc ++ flushE e ++ [c]) 0]
      show acc ++ flushE e ++ [c] ++ encAux 0 t = acc ++ (flushE e ++ c :: encAux 0 t)
      simp

theorem encodeRank_eq_encAux (row : List (Option Char)) :
    encodeRank row = encAux 0 row := by
  have h := foldl_encodeRankStep row [] 0
  simpa [encodeRank] using h

theorem parseRank_append (l1 l2 : List Char) :
    parseRank (l1 ++ l2) = parseRank l1 ++ parseRank l2 := by
  unfold parseRank
  rw [List.flatMap_append]

theorem parseRank_flushE (e : Nat) (h : e ≤ 9) :
    parseRank (flushE e) = List.replicate e none := by
  interval_cases e <;> decide

theorem flushE_chars (e : Nat) (h1 : e ≤ 9) (ch : Char) (hch : ch ∈ flushE e) :
    '1' ≤ ch ∧ ch ≤ '9' := by
  interval_cases e <;> cases hch <;> first | decide | (rename_i h; cases h)

theorem parseRank_encAux (row : List (Option Char))
    (nondigit : ∀ c : Char, some c ∈ row → ¬ ('1' ≤ c ∧ c ≤ '9')) :
    ∀ e : Nat, e + row.length ≤ 9 →
      parseRank (encAux e row) = List.replicate e none ++ row := by
  induction row with
  | nil =>
    intro e he
    show parseRank (flushE e) = _
    rw [parseRank_flushE e (by simpa using he)]
    simp
  | cons cell t ih =>
    intro e he
    have nd' : ∀ c : Char, some c ∈ t → ¬ ('1' ≤ c ∧ c ≤ '9') :=
      fun c hc => nondigit c (List.mem_cons_of_mem _ hc)
    cases cell with
    | none =>
      show parseRank (encAux (e + 1) t) = _
      rw [ih nd' (e + 1) (by simp at he ⊢; omega)]
      rw [List.replicate_succ']
      simp
    | some c =>
      show parseRank (flushE e ++ c :: encAux 0 t) = _
      rw [show (flushE e ++ c :: encAux 0 t) = flushE e ++ [c] ++ encAux 0 t by simp]
      rw [parseRank_append, parseRank_append]
      rw [parseRank_flushE e (by simp at he; omega)]
      rw [ih nd' 0 (by simp at he ⊢; omega)]
      have hcnd : ¬ ('1' ≤ c ∧ c ≤ '9') := nondigit c (List.mem_cons_self _ _)
      show _ ++ parseRank [c] ++ _ = _
      unfold parseRank
      simp [hcnd]

theorem parseRank_encodeRank (row : List (Option Char)) (hlen : row.length ≤ 9)
    (nondigit : ∀ c : Char, some c ∈ row → ¬ ('1' ≤ c ∧ c ≤ '9')) :
    parseRank (encodeRank row) = row := by
  rw [encodeRank_eq_encAux]
  simpa using parseRank_encAux row nondigit 0 (by omega)

theorem mem_encAux (row : List (Option Char)) (ch : Char) :
    ∀ e : Nat, e + row.length ≤ 9 → ch ∈ encAux e row →
      ('1' ≤ ch ∧ ch ≤ '9') ∨ some ch ∈ row := by
  induction row with
  | nil =>
    intro e he hch
    left
    exact flushE_chars e (by simpa using he) ch hch
  | cons cell t ih =>
    intro e he hch
    cases cell with
    | none =>
      rcases ih (e + 1) (by simp at he ⊢; omega) hch with h | h
      · left; exact h
      · right; exact List.mem_cons_of_mem _ h
    | some c =>
      rcases List.mem_append.mp hch with h | h
      · left; exact flushE_chars e (by simp at he; omega) ch h
      · rcases List.mem_cons.mp h with h1 | h1
        · right; rw [h1]; exact List.mem_cons_self _ _
        · rcases ih 0 (by simp at he ⊢; omega) h1 with h2 | h2
          · left; exact h2
          · right; exact List.mem_cons_of_mem _ h2

theorem mem_encodeRank (row : List (Option Char)) (hlen : row.length ≤ 9) (ch : Char)
    (hch : ch ∈ encodeRank row) : ('1' ≤ ch ∧ ch ≤ '9') ∨ some ch ∈ row := by
  rw [encodeRank_eq_encAux] at hch
  exact mem_encAux row ch 0 (by omega) hch

/-- A reachable Position: a 10 × 9 board of genuine piece characters with a
valid side-to-move token. -/
def reachableWF (pos : Position) : Prop :=
  boardWF pos.board ∧
  (∀ row ∈ pos.board, ∀ cell ∈ row, ∀ c : Char, cell = some c → isPieceChar c) ∧
  (pos.turn = ['w'] ∨ pos.turn = ['b'])

instance : DecidablePred reachableWF := fun pos => by
  unfold reachableWF boardWF; infer_instance

theorem isPieceChar_facts (c : Char) (h : isPieceChar c) :
    ¬ ('1' ≤ c ∧ c ≤ '9') ∧ c ≠ '/' ∧ c ≠ ' ' := by
  unfold isPieceChar at h
  fin_cases h <;> exact ⟨by decide, by decide, by decide⟩

/-- C2: the codec round-trips — decoding the encoding of any reachable
Position gives back a structurally equal Position. -/
theorem parseFen_toFen_roundtrip (pos : Position) (h : reachableWF pos) :
    parseFen (toFen pos) = pos := by
  obtain ⟨b, t⟩ := pos
  obtain ⟨⟨hlen, hrows⟩, hcells, hturn⟩ := h
  simp only at hlen hrows hcells hturn
  have hrank_chars : ∀ row ∈ b, ∀ ch ∈ encodeRank row, ch ≠ ' ' ∧ ch ≠ '/' := by
    intro row hrow ch hch
    rcases mem_encodeRank row (le_of_eq (hrows row hrow)) ch hch with hd | hp
    · constructor <;> (intro hcontra; subst hcontra; revert hd; decide)
    · have hpc := hcells row hrow (some ch) hp ch rfl
      have hf := isPieceChar_facts ch hpc
      exact ⟨hf.2.2, hf.2.1⟩
  have hsp_placement : ' ' ∉ joinSep '/' (b.map encodeRank) := by
    intro hmem
    rcases mem_joinSep '/' _ ' ' hmem with h1 | ⟨l, hl, hch⟩
    · exact absurd h1 (by decide)
    · rw [List.mem_map] at hl
      obtain ⟨row, hrow, rfl⟩ := hl
      exact (hrank_chars row hrow ' ' hch).1 rfl
  have hslash_ranks : ∀ l ∈ b.map encodeRank, '/' ∉ l := by
    intro l hl hmem
    rw [List.mem_map] at hl
    obtain ⟨row, hrow, rfl⟩ := hl
    exact (hrank_chars row hrow '/' hmem).2 rfl
  have hturn_nosp : ' ' ∉ t := by
    rcases hturn with h | h <;> rw [h] <;> decide
  have htofen : toFen ⟨b, t⟩ =
      joinSep '/' (b.map encodeRank) ++ ' ' :: (t ++ ' ' :: ("- - 0 1").data) := rfl
  have hsplit : splitOnChar ' ' (toFen ⟨b, t⟩) =
      joinSep '/' (b.map encodeRank) :: t :: [['-'], ['-'], ['0'], ['1']] := by
    rw [htofen, splitOnChar_append ' ' _ _ hsp_placement,
      splitOnChar_append ' ' t _ hturn_nosp]
    rfl
  have hboard_ne : b.map encodeRank ≠ [] := by
    intro hc
    have := congrArg List.length hc
    simp [hlen] at this
  have ht_ne : t ≠ [] := by
    rcases hturn with h | h <;> simp [h]
  show parseFen (toFen ⟨b, t⟩) = ⟨b, t⟩
  unfold parseFen
  rw [hsplit]
  simp only [List.headD_cons, List.get?_cons_succ, List.get?_cons_zero]
  rw [splitOnChar_joinSep '/' _ hslash_ranks hboard_ne, List.map_map]
  have hmapid : List.map (parseRank ∘ encodeRank) b = b := by
    have h1 : ∀ row ∈ b, (parseRank ∘ encodeRank) row = id row := by
      intro row hrow
      show parseRank (encodeRank row) = row
      exact parseRank_encodeRank row (le_of_eq (hrows row hrow))
        (fun c hc => (isPieceChar_facts c (hcells row hrow (some c) hc c rfl)).1)
    rw [List.map_congr_left h1, List.map_id]
  rw [hmapid, if_neg ht_ne]

theorem parseFen_toFen_roundtrip_witness :
    reachableWF (parseFen STARTING_FEN) ∧
    parseFen (toFen (parseFen STARTING_FEN)) = parseFen STARTING_FEN :=
  ⟨by decide, parseFen_toFen_roundtrip _ (by decide)⟩

/-! ### Claim C8: positional-notation translation -/

/-- Spec-side: side-relative file number — files counted from the right for
the first mover (red) and from the left for the second mover (columns are
0-based left to right, the result 1-based). -/
def sideRelativeFile (red : Bool) (col : Int) : Int :=
  if red then 9 - col else col + 1

/-- Spec-side: the mover's forward direction in rank terms — red advances
toward higher ranks, black toward lower ranks. -/
def specForward (red : Bool) (fromRank toRank : Int) : Prop :=
  if red then fromRank < toRank else toRank < fromRank

instance (red : Bool) (a b : Int) : Decidable (specForward red a b) := by
  unfold specForward; infer_instance

/-- Spec-side: the action glyph — lateral exactly when the ranks are equal,
otherwise advance or retreat by the mover's forward direction. -/
def specActionGlyph (red : Bool) (fromRank toRank : Int) : Char :=
  if fromRank = toRank then '平'
  else if specForward red fromRank toRank then '进' else '退'

/-- Spec-side: the closing quantity — the number of ranks traversed for
chariots, cannons, soldiers and generals moving vertically, the side-relative
destination file for every other piece (and for every lateral move). -/
def specQuantity (piece : Char) (red : Bool) (fromRank toRank toCol : Int) : Nat :=
  if fromRank = toRank then (sideRelativeFile red toCol).toNat
  else if piece.toLower = 'r' ∨ piece.toLower = 'c' ∨ piece.toLower = 'p' ∨
      piece.toLower = 'k' then
    (toRank - fromRank).natAbs
  else (sideRelativeFile red toCol).toNat

/-- C8: for a move token whose rank characters parse as digits and whose
origin square holds a piece, the translator emits exactly piece glyph,
side-relative origin file, spec action glyph, and spec quantity, all digits
drawn from the ideographic table for red and the numeral table for black. -/
theorem uciToChineseNotation_spec (fen : List Char) (c0 c1 c2 c3 : Char)
    (d1 d3 : Nat) (piece : Char)
    (hd1 : charDigit? c1 = some d1) (hd3 : charDigit? c3 = some d3)
    (hp : bget (parseFen fen).board (9 - (d1 : Int)) ((c0.toNat : Int) - 97)
      = some piece) :
    uciToChineseNotation [c0, c1, c2, c3] fen =
      PIECE_NAMES piece ++
      (if isRedPiece piece then RED_DIGITS else BLACK_DIGITS).getD
        (sideRelativeFile (isRedPiece piece) ((c0.toNat : Int) - 97)).toNat [] ++
      specActionGlyph (isRedPiece piece) (d1 : Int) (d3 : Int) ::
      (if isRedPiece piece then RED_DIGITS else BLACK_DIGITS).getD
        (specQuantity piece (isRedPiece piece) (d1 : Int) (d3 : Int)
          ((c2.toNat : Int) - 97)) [] := by
  unfold uciToChineseNotation
  simp only [hd1, hd3]
  unfold uciNotationCore
  simp only [hp]
  unfold specActionGlyph specQuantity sideRelativeFile specForward
  by_cases hlat : (d1 : Int) = (d3 : Int)
  · rw [if_pos (show (9 : Int) - (d1 : Int) = 9 - (d3 : Int) by omega),
      if_pos hlat, if_pos hlat]
  · rw [if_neg (show ¬ ((9 : Int) - (d1 : Int) = 9 - (d3 : Int)) by omega),
      if_neg hlat, if_neg hlat]
    have habs : ((9 - (d3 : Int)) - (9 - (d1 : Int))).natAbs =
        ((d3 : Int) - (d1 : Int)).natAbs := by omega
    cases hred : isRedPiece piece with
    | true =>
      simp only [eq_self_iff_true, if_true, apply_ite Prod.fst, apply_ite Prod.snd,
        ite_self]
      rw [habs, if_congr (show ((9 : Int) - (d3 : Int) < 9 - (d1 : Int)) ↔
        ((d1 : Int) < (d3 : Int)) by omega) rfl rfl]
      by_cases hty : piece.toLower = 'r' ∨ piece.toLower = 'c' ∨ piece.toLower = 'p' ∨
          piece.toLower = 'k'
      · rw [if_pos hty, if_pos hty]
      · rw [if_neg hty, if_neg hty]
    | false =>
      simp only [Bool.false_eq_true, if_false, apply_ite Prod.fst, apply_ite Prod.snd,
        ite_self]
      rw [habs, if_congr (show ((9 : Int) - (d3 : Int) > 9 - (d1 : Int)) ↔
        ((d3 : Int) < (d1 : Int)) by omega) rfl rfl]
      by_cases hty : piece.toLower = 'r' ∨ piece.toLower = 'c' ∨ piece.toLower = 'p' ∨
          piece.toLower = 'k'
      · rw [if_pos hty, if_pos hty]
      · rw [if_neg hty, if_neg hty]

theorem uciToChineseNotation_spec_witness :
    uciToChineseNotation ['b', '2', 'e', '2'] STARTING_FEN =
      PIECE_NAMES 'C' ++
      (if isRedPiece 'C' then RED_DIGITS else BLACK_DIGITS).getD
        (sideRelativeFile (isRedPiece 'C') ((('b').toNat : Int) - 97)).toNat [] ++
      specActionGlyph (isRedPiece 'C') ((2 : Nat) : Int) ((2 : Nat) : Int) ::
      (if isRedPiece 'C' then RED_DIGITS else BLACK_DIGITS).getD
        (specQuantity 'C' (isRedPiece 'C') ((2 : Nat) : Int) ((2 : Nat) : Int)
          ((('e').toNat : Int) - 97)) [] :=
  uciToChineseNotation_spec STARTING_FEN 'b' '2' 'e' '2' 2 2 'C'
    (by decide) (by decide) (by decide)

/-! ### Claim C6: flying-general capture -/

theorem bget_some_bounds (b : Board) (hwf : boardWF b) (r c : Int) (p : Char)
    (h : bget b r c = some p) : 0 ≤ r ∧ r < 10 ∧ 0 ≤ c ∧ c < 9 := by
  unfold bget at h
  by_cases hg : 0 ≤ r ∧ 0 ≤ c
  · rw [if_pos hg] at h
    cases hrow : b[r.toNat]? with
    | none => rw [hrow] at h; cases h
    | some row =>
      rw [hrow] at h
      simp only [Option.some_bind] at h
      have hlt : r.toNat < b.length := by
        by_contra hge
        rw [List.getElem?_eq_none (by omega)] at hrow
        cases hrow
      have hcl : c.toNat < row.length := by
        by_contra hge
        rw [List.getElem?_eq_none (by omega)] at h
        cases h
      have hrow9 : row.length = 9 := hwf.2 row (List.getElem?_mem hrow)
      have hb10 : b.length = 10 := hwf.1
      omega
  · rw [if_neg hg] at h; cases h

theorem boardWF_row (b : Board) (hwf : boardWF b) (r : Int) (h0 : 0 ≤ r) (h10 : r < 10) :
    ∃ row, b[r.toNat]? = some row ∧ row.length = 9 := by
  have hb10 : b.length = 10 := hwf.1
  have hlt : r.toNat < b.length := by omega
  refine ⟨b[r.toNat], List.getElem?_eq_getElem hlt, ?_⟩
  exact hwf.2 _ (List.getElem_mem hlt)

theorem boardWF_bset (b : Board) (hwf : boardWF b) (r c : Int) (v : Option Char) :
    boardWF (bset b r c v) := by
  unfold bset
  split
  · cases hrow : b[r.toNat]? with
    | none => simpa [hrow] using hwf
    | some row =>
      simp only [hrow]
      constructor
      · rw [List.length_set]; exact hwf.1
      · intro row' hrow'
        rcases List.mem_or_eq_of_mem_set hrow' with h | h
        · exact hwf.2 row' h
        · rw [h, List.length_set]
          exact hwf.2 row (List.getElem?_mem hrow)
  · exact hwf

theorem bget_bset_full (b : Board) (hwf : boardWF b) (r c : Int) (v : Option Char)
    (r' c' : Int) (h0r : 0 ≤ r) (h10 : r < 10) (h0c : 0 ≤ c) (h9 : c < 9) :
    bget (bset b r c v) r' c' = if r' = r ∧ c' = c then v else bget b r' c' := by
  by_cases heq : r' = r ∧ c' = c
  · rw [if_pos heq, heq.1, heq.2]
    obtain ⟨row, hrow, hlen⟩ := boardWF_row b hwf r h0r h10
    exact bget_bset_self b r c v h0r h0c row hrow (by omega)
  · rw [if_neg heq]
    by_cases hg' : 0 ≤ r' ∧ 0 ≤ c'
    · rcases not_and_or.mp heq with hne | hne
      · exact bget_bset_of_row_ne b r c v r' c' (by omega)
      · exact bget_bset_of_col_ne b r c v r' c' (by omega)
    · rw [bget_neg _ r' c' hg', bget_neg b r' c' hg']

theorem find?_eq_some_of_unique {α : Type} (l : List α) (p : α → Bool) (x : α)
    (hmem : x ∈ l) (hx : p x = true) (huniq : ∀ y ∈ l, p y = true → y = x) :
    l.find? p = some x := by
  induction l with
  | nil => cases hmem
  | cons a t ih =>
    by_cases ha : p a = true
    · rw [List.find?_cons_of_pos _ ha]
      exact congrArg some (huniq a (List.mem_cons_self _ _) ha)
    · rw [List.find?_cons_of_neg _ ha]
      apply ih
      · rcases List.mem_cons.mp hmem with h | h
        · exact absurd (h ▸ hx) ha
        · exact h
      · exact fun y hy hpy => huniq y (List.mem_cons_of_mem _ hy) hpy

theorem findKing_unique (b : Board) (side : Side) (r c : Int)
    (hr : 0 ≤ r) (hr10 : r < 10) (hc : 0 ≤ c) (hc9 : c < 9)
    (hking : bget b r c = some (kingChar side))
    (huniq : ∀ r' c' : Int, bget b r' c' = some (kingChar side) → r' = r ∧ c' = c) :
    findKing b side = some ⟨r, c⟩ := by
  unfold findKing
  rw [find?_eq_some_of_unique allSquares _ (r.toNat, c.toNat)
    ((mem_allSquares_iff _ _).mpr ⟨by omega, by omega⟩)
    (by simp only [Int.toNat_of_nonneg hr, Int.toNat_of_nonneg hc]
        simpa using hking)
    ?uniq]
  case uniq =>
    intro y _ hy
    simp only [decide_eq_true_eq] at hy
    obtain ⟨h1, h2⟩ := huniq _ _ hy
    obtain ⟨y1, y2⟩ := y
    simp only at h1 h2
    have hy1 : y1 = r.toNat := by omega
    have hy2 : y2 = c.toNat := by omega
    rw [hy1, hy2]
  simp only [Option.map_some']
  have h1 : ((r.toNat : Nat) : Int) = r := Int.toNat_of_nonneg hr
  have h2 : ((c.toNat : Nat) : Int) = c := Int.toNat_of_nonneg hc
  rw [h1, h2]

theorem bget_none_outside (b : Board) (hwf : boardWF b) (r c : Int)
    (h : ¬ (0 ≤ r ∧ r < 10 ∧ 0 ≤ c ∧ c < 9)) : bget b r c = none := by
  cases hbx : bget b r c with
  | none => rfl
  | some p => exact absurd (bget_some_bounds b hwf r c p hbx) h

theorem flyLoop_reaches (b : Board) (oppK : Char) (col dir : Int) :
    ∀ (n fuel : Nat) (s : Int), n < fuel →
      (∀ m : Nat, m < n → bget b (s + dir * (m : Int)) col = none) →
      bget b (s + dir * (n : Int)) col = some oppK →
      (∀ m : Nat, m ≤ n → 0 ≤ s + dir * (m : Int) ∧ s + dir * (m : Int) < 10) →
      (⟨s + dir * (n : Int), col⟩ : Square) ∈ flyLoop b oppK col dir fuel s := by
  intro n
  induction n with
  | zero =>
    intro fuel s hfuel _hempty htarget hbounds
    obtain ⟨f, rfl⟩ : ∃ f, fuel = f + 1 := ⟨fuel - 1, by omega⟩
    have hb0 : 0 ≤ s ∧ s < 10 := by simpa using hbounds 0 (le_refl 0)
    simp only [Nat.cast_zero, mul_zero, add_zero] at htarget ⊢
    show _ ∈ (if 0 ≤ s ∧ s < 10 then
      match bget b s col with
      | some q => if q = oppK then [(⟨s, col⟩ : Square)] else []
      | none => flyLoop b oppK col dir f (s + dir)
      else [])
    rw [if_pos hb0, htarget]
    simp
  | succ n' ih =>
    intro fuel s hfuel hempty htarget hbounds
    obtain ⟨f, rfl⟩ : ∃ f, fuel = f + 1 := ⟨fuel - 1, by omega⟩
    have hb0 : 0 ≤ s ∧ s < 10 := by simpa using hbounds 0 (by omega)
    have hs_empty : bget b s col = none := by simpa using hempty 0 (by omega)
    show _ ∈ (if 0 ≤ s ∧ s < 10 then
      match bget b s col with
      | some q => if q = oppK then [(⟨s, col⟩ : Square)] else []
      | none => flyLoop b oppK col dir f (s + dir)
      else [])
    rw [if_pos hb0, hs_empty]
    have harith : s + dir * ((n' + 1 : Nat) : Int) = (s + dir) + dir * (n' : Int) := by
      push_cast
      ring
    rw [harith]
    apply ih f (s + dir) (by omega)
    · intro m hm
      have h := hempty (m + 1) (by omega)
      rwa [show s + dir * ((m + 1 : Nat) : Int) = (s + dir) + dir * (m : Int) by
        push_cast; ring] at h
    · rwa [harith] at htarget
    · intro m hm
      have h := hbounds (m + 1) (by omega)
      rwa [show s + dir * ((m + 1 : Nat) : Int) = (s + dir) + dir * (m : Int) by
        push_cast; ring] at h

theorem mem_generatePieceMoves_king_fly (b : Board) (row col : Int) (piece : Char)
    (htype : piece.toLower = 'k') (tgt : Square) (dir : Int)
    (hdir : dir = -1 ∨ dir = 1)
    (hmem : tgt ∈ flyLoop b (if pieceColor piece = ['w'] then 'k' else 'K')
      col dir 10 (row + dir)) :
    tgt ∈ generatePieceMoves b row col piece := by
  unfold generatePieceMoves
  simp only [htype]
  simp only [show (('k' : Char) = 'r') = False by simp,
    show (('k' : Char) = 'c') = False by simp,
    show (('k' : Char) = 'n') = False by simp,
    show (('k' : Char) = 'b') = False by simp,
    show (('k' : Char) = 'a') = False by simp,
    if_false, eq_self_iff_true, if_true]
  rw [List.mem_append]
  right
  rw [List.mem_flatMap]
  refine ⟨dir, ?_, hmem⟩
  rcases hdir with h | h <;> simp [h]

theorem flying_general_helper (b : Board) (turn : Side) (myK oppK : Char)
    (rm ro c : Int)
    (hwf : boardWF b)
    (htype : myK.toLower = 'k')
    (hcolor : pieceColor myK = turn)
    (hoppsel : (if pieceColor myK = ['w'] then 'k' else 'K') = oppK)
    (hkingchar : kingChar turn = myK)
    (hKone : myK ≠ oppK)
    (hattcolor : pieceColor myK ≠ opponentOf turn)
    (hK : bget b rm c = some myK) (hk : bget b ro c = some oppK)
    (hne : rm ≠ ro)
    (honly : ∀ (r' c' : Int) (p : Char), bget b r' c' = some p →
      (r' = rm ∧ c' = c ∧ p = myK) ∨ (r' = ro ∧ c' = c ∧ p = oppK)) :
    (⟨⟨rm, c⟩, ⟨ro, c⟩⟩ : Move) ∈ generateLegalMoves ⟨b, turn⟩ := by
  obtain ⟨h0rm, h10rm, h0c, h9c⟩ := bget_some_bounds b hwf rm c myK hK
  obtain ⟨h0ro, h10ro, _, _⟩ := bget_some_bounds b hwf ro c oppK hk
  have hempty_between : ∀ x : Int, x ≠ rm → x ≠ ro → bget b x c = none := by
    intro x hx1 hx2
    cases hbx : bget b x c with
    | none => rfl
    | some p =>
      rcases honly x c p hbx with ⟨h1, _, _⟩ | ⟨h1, _, _⟩
      · exact absurd h1 hx1
      · exact absurd h1 hx2
  have hflyall : ∃ dir : Int, (dir = -1 ∨ dir = 1) ∧
      (⟨ro, c⟩ : Square) ∈ flyLoop b oppK c dir 10 (rm + dir) := by
    rcases lt_or_gt_of_ne hne with hlt | hgt
    · refine ⟨1, Or.inr rfl, ?_⟩
      have hd : 0 ≤ ro - rm - 1 := by omega
      have hcast : (((ro - rm - 1).toNat : Nat) : Int) = ro - rm - 1 :=
        Int.toNat_of_nonneg hd
      have happ := flyLoop_reaches b oppK c 1 (ro - rm - 1).toNat 10 (rm + 1)
        (by omega)
        (by
          intro m hm
          apply hempty_between
          · omega
          · omega)
        (by
          rw [show (rm + 1) + 1 * (((ro - rm - 1).toNat : Nat) : Int) = ro by omega]
          exact hk)
        (by intro m hm; constructor <;> omega)
      rwa [show (rm + 1) + 1 * (((ro - rm - 1).toNat : Nat) : Int) = ro by omega]
        at happ
    · refine ⟨-1, Or.inl rfl, ?_⟩
      have hd : 0 ≤ rm - ro - 1 := by omega
      have hcast : (((rm - ro - 1).toNat : Nat) : Int) = rm - ro - 1 :=
        Int.toNat_of_nonneg hd
      have happ := flyLoop_reaches b oppK c (-1) (rm - ro - 1).toNat 10 (rm - 1)
        (by omega)
        (by
          intro m hm
          apply hempty_between
          · omega
          · omega)
        (by
          rw [show (rm - 1) + (-1) * (((rm - ro - 1).toNat : Nat) : Int) = ro by omega]
          exact hk)
        (by intro m hm; constructor <;> omega)
      rwa [show (rm - 1) + (-1) * (((rm - ro - 1).toNat : Nat) : Int) = ro by omega]
        at happ
  have hnb_full : ∀ r' c' : Int, bget (boardMovePiece b ⟨rm, c⟩ ⟨ro, c⟩) r' c' =
      if r' = rm ∧ c' = c then none
      else if r' = ro ∧ c' = c then some myK
      else bget b r' c' := by
    intro r' c'
    show bget (bset (bset b ro c (bget b rm c)) rm c none) r' c' = _
    rw [bget_bset_full _ (boardWF_bset b hwf ro c _) rm c none r' c' h0rm h10rm h0c h9c]
    by_cases h1 : r' = rm ∧ c' = c
    · rw [if_pos h1, if_pos h1]
    · rw [if_neg h1, if_neg h1]
      rw [bget_bset_full b hwf ro c _ r' c' h0ro h10ro h0c h9c]
      by_cases h2 : r' = ro ∧ c' = c
      · rw [if_pos h2, if_pos h2, hK]
      · rw [if_neg h2, if_neg h2]
  have hfk : findKing (boardMovePiece b ⟨rm, c⟩ ⟨ro, c⟩) turn = some ⟨ro, c⟩ := by
    apply findKing_unique _ _ ro c h0ro h10ro h0c h9c
    · rw [hkingchar, hnb_full, if_neg (by
        rintro ⟨h1, _⟩
        exact hne (h1 ▸ rfl)), if_pos ⟨rfl, rfl⟩]
    · intro r' c' hp
      rw [hkingchar, hnb_full r' c'] at hp
      by_cases h1 : r' = rm ∧ c' = c
      · rw [if_pos h1] at hp; cases hp
      · rw [if_neg h1] at hp
        by_cases h2 : r' = ro ∧ c' = c
        · exact h2
        · rw [if_neg h2] at hp
          rcases honly r' c' myK hp with ⟨ha, hb', _⟩ | ⟨_, _, hcontra⟩
          · exact absurd ⟨ha, hb'⟩ h1
          · exact absurd hcontra hKone
  have hatt : isUnderAttack (boardMovePiece b ⟨rm, c⟩ ⟨ro, c⟩) ⟨ro, c⟩
      (opponentOf turn) = false := by
    apply isUnderAttack_eq_false
    intro rc _hrc p hp
    rw [hnb_full] at hp
    by_cases h1 : ((rc.1 : Nat) : Int) = rm ∧ ((rc.2 : Nat) : Int) = c
    · rw [if_pos h1] at hp; cases hp
    · rw [if_neg h1] at hp
      by_cases h2 : ((rc.1 : Nat) : Int) = ro ∧ ((rc.2 : Nat) : Int) = c
      · rw [if_pos h2] at hp
        cases hp
        exact hattcolor
      · rw [if_neg h2] at hp
        rcases honly _ _ p hp with ⟨ha, hb', _⟩ | ⟨ha, hb', _⟩
        · exact absurd ⟨ha, hb'⟩ h1
        · exact absurd ⟨ha, hb'⟩ h2
  obtain ⟨dir, hdirs, hflymem⟩ := hflyall
  unfold generateLegalMoves
  rw [List.mem_flatMap]
  refine ⟨(rm.toNat, c.toNat), (mem_allSquares_iff _ _).mpr ⟨by omega, by omega⟩, ?_⟩
  unfold genAt
  have hcastr : ((rm.toNat : Nat) : Int) = rm := Int.toNat_of_nonneg h0rm
  have hcastc : ((c.toNat : Nat) : Int) = c := Int.toNat_of_nonneg h0c
  simp only [hcastr, hcastc, hK]
  rw [if_pos hcolor]
  rw [List.mem_filterMap]
  refine ⟨⟨ro, c⟩, ?_, ?_⟩
  · apply mem_generatePieceMoves_king_fly b rm c myK htype _ dir hdirs
    rw [hoppsel]
    exact hflymem
  · unfold legalFilter
    simp only [hcastr, hcastc]
    simp only [hfk]
    rw [if_neg (by rw [hatt]; exact Bool.false_ne_true)]

/-- C6: in a position whose board holds only the two generals, on the same
file with nothing between them, the side to move has the capture of the
opposing general in its legal-move list (flying-general capture). -/
theorem flying_general_legal (pos : Position) (rw_ rb_ c : Int)
    (hwf : boardWF pos.board)
    (hK : bget pos.board rw_ c = some 'K') (hk : bget pos.board rb_ c = some 'k')
    (hne : rw_ ≠ rb_)
    (honly : ∀ (r' : Fin 10) (c' : Fin 9),
      bget pos.board ((r' : Nat) : Int) ((c' : Nat) : Int) = none ∨
      (((r' : Nat) : Int) = rw_ ∧ ((c' : Nat) : Int) = c ∧
        bget pos.board ((r' : Nat) : Int) ((c' : Nat) : Int) = some 'K') ∨
      (((r' : Nat) : Int) = rb_ ∧ ((c' : Nat) : Int) = c ∧
        bget pos.board ((r' : Nat) : Int) ((c' : Nat) : Int) = some 'k'))
    (hturn : pos.turn = ['w'] ∨ pos.turn = ['b']) :
    (if pos.turn = ['w'] then (⟨⟨rw_, c⟩, ⟨rb_, c⟩⟩ : Move)
     else ⟨⟨rb_, c⟩, ⟨rw_, c⟩⟩) ∈ generateLegalMoves pos := by
  obtain ⟨b, t⟩ := pos
  simp only at hwf hK hk honly hturn ⊢
  have honly' : ∀ (r' c' : Int) (p : Char), bget b r' c' = some p →
      (r' = rw_ ∧ c' = c ∧ p = 'K') ∨ (r' = rb_ ∧ c' = c ∧ p = 'k') := by
    intro r' c' p hp
    obtain ⟨hb1, hb2, hb3, hb4⟩ := bget_some_bounds b hwf r' c' p hp
    have h := honly ⟨r'.toNat, by omega⟩ ⟨c'.toNat, by omega⟩
    have h2 : bget b ((r'.toNat : Nat) : Int) ((c'.toNat : Nat) : Int) = none ∨
        (((r'.toNat : Nat) : Int) = rw_ ∧ ((c'.toNat : Nat) : Int) = c ∧
          bget b ((r'.toNat : Nat) : Int) ((c'.toNat : Nat) : Int) = some 'K') ∨
        (((r'.toNat : Nat) : Int) = rb_ ∧ ((c'.toNat : Nat) : Int) = c ∧
          bget b ((r'.toNat : Nat) : Int) ((c'.toNat : Nat) : Int) = some 'k') := h
    rw [Int.toNat_of_nonneg hb1, Int.toNat_of_nonneg hb3] at h2
    rcases h2 with h2 | ⟨ha, hb', hv⟩ | ⟨ha, hb', hv⟩
    · rw [hp] at h2; cases h2
    · rw [hp] at hv
      injection hv with hv
      exact Or.inl ⟨ha, hb', hv⟩
    · rw [hp] at hv
      injection hv with hv
      exact Or.inr ⟨ha, hb', hv⟩
  rcases hturn with ht | ht
  · subst ht
    rw [if_pos rfl]
    exact flying_general_helper b ['w'] 'K' 'k' rw_ rb_ c hwf (by decide) (by decide)
      (by decide) (by decide) (by decide) (by decide) hK hk hne honly'
  · subst ht
    rw [if_neg (by decide)]
    apply flying_general_helper b ['b'] 'k' 'K' rb_ rw_ c hwf (by decide) (by decide)
      (by decide) (by decide) (by decide) (by decide) hk hK (Ne.symm hne)
    intro r' c' p hp
    rcases honly' r' c' p hp with h | h
    · exact Or.inr h
    · exact Or.inl h

theorem flying_general_legal_witness :
    (if (parseFen (("4k4/9/9/9/9/9/9/9/9/4K4 w - - 0 1").data)).turn = ['w'] then
      (⟨⟨9, 4⟩, ⟨0, 4⟩⟩ : Move) else ⟨⟨0, 4⟩, ⟨9, 4⟩⟩) ∈
      generateLegalMoves (parseFen (("4k4/9/9/9/9/9/9/9/9/4K4 w - - 0 1").data)) :=
  flying_general_legal _ 9 0 4 (by decide) (by decide) (by decide) (by decide)
    (by decide) (by decide)

/-! ### Claim C5: cannon capture needs exactly one screen -/

theorem cannonLoop_step (b : Board) (side : Side) (dr dc : Int) (f : Nat) (r c : Int)
    (j : Bool) :
    cannonLoop b side dr dc (f + 1) r c j =
      (if inBounds (r + dr) (c + dc) then
        if j then
          match bget b (r + dr) (c + dc) with
          | none => cannonLoop b side dr dc f (r + dr) (c + dc) true
          | some q => if pieceColor q ≠ side then [(⟨r + dr, c + dc⟩ : Square)] else []
        else
          match bget b (r + dr) (c + dc) with
          | none =>
            (⟨r + dr, c + dc⟩ : Square) ::
              cannonLoop b side dr dc f (r + dr) (c + dc) false
          | some _ => cannonLoop b side dr dc f (r + dr) (c + dc) true
      else []) := by
  cases j <;> rfl

theorem cannonLoop_mem_coords (b : Board) (side : Side) (dr dc : Int) :
    ∀ (fuel : Nat) (r c : Int) (j : Bool) (s : Square),
      s ∈ cannonLoop b side dr dc fuel r c j →
      ∃ k : Nat, 1 ≤ k ∧ k ≤ fuel ∧
        s.row = r + dr * (k : Int) ∧ s.col = c + dc * (k : Int) := by
  intro fuel
  induction fuel with
  | zero => intro r c j s hs; cases hs
  | succ f ih =>
    intro r c j s hs
    rw [cannonLoop_step] at hs
    split at hs
    · have hsucc : ∀ (j' : Bool), s ∈ cannonLoop b side dr dc f (r + dr) (c + dc) j' →
          ∃ k : Nat, 1 ≤ k ∧ k ≤ f + 1 ∧
            s.row = r + dr * (k : Int) ∧ s.col = c + dc * (k : Int) := by
        intro j' hmem
        obtain ⟨k, hk1, hkf, hrow, hcol⟩ := ih (r + dr) (c + dc) j' s hmem
        refine ⟨k + 1, by omega, by omega, ?_, ?_⟩
        · rw [hrow]; push_cast; ring
        · rw [hcol]; push_cast; ring
      have hone : s = (⟨r + dr, c + dc⟩ : Square) →
          ∃ k : Nat, 1 ≤ k ∧ k ≤ f + 1 ∧
            s.row = r + dr * (k : Int) ∧ s.col = c + dc * (k : Int) := by
        intro hseq
        refine ⟨1, le_refl 1, by omega, ?_, ?_⟩ <;> rw [hseq] <;> push_cast <;> ring
      split at hs
      · split at hs
        · exact hsucc true hs
        · split at hs
          · exact hone (List.mem_singleton.mp hs)
          · cases hs
      · split at hs
        · rcases List.mem_cons.mp hs with hseq | htail
          · exact hone hseq
          · exact hsucc false htail
        · exact hsucc true hs
    · cases hs

theorem cannonLoop_step_true (b : Board) (side : Side) (dr dc : Int) (f : Nat)
    (r c : Int) :
    cannonLoop b side dr dc (f + 1) r c true =
      (if inBounds (r + dr) (c + dc) then
        match bget b (r + dr) (c + dc) with
        | none => cannonLoop b side dr dc f (r + dr) (c + dc) true
        | some q => if pieceColor q ≠ side then [(⟨r + dr, c + dc⟩ : Square)] else []
      else []) := rfl

theorem cannonLoop_step_false (b : Board) (side : Side) (dr dc : Int) (f : Nat)
    (r c : Int) :
    cannonLoop b side dr dc (f + 1) r c false =
      (if inBounds (r + dr) (c + dc) then
        match bget b (r + dr) (c + dc) with
        | none =>
          (⟨r + dr, c + dc⟩ : Square) ::
            cannonLoop b side dr dc f (r + dr) (c + dc) false
        | some _ => cannonLoop b side dr dc f (r + dr) (c + dc) true
      else []) := rfl

theorem cannonLoop_jumped_iff (b : Board) (side : Side) (dr dc : Int)
    (hdir : (dr = 0 ∧ (dc = 1 ∨ dc = -1)) ∨ (dc = 0 ∧ (dr = 1 ∨ dr = -1))) :
    ∀ (d : Nat), 1 ≤ d → ∀ (fuel : Nat) (r c : Int) (q : Char),
      d ≤ fuel →
      (∀ k : Nat, 1 ≤ k → k ≤ d →
        inBounds (r + dr * (k : Int)) (c + dc * (k : Int)) = true) →
      bget b (r + dr * (d : Int)) (c + dc * (d : Int)) = some q →
      pieceColor q ≠ side →
      ((⟨r + dr * (d : Int), c + dc * (d : Int)⟩ : Square) ∈
          cannonLoop b side dr dc fuel r c true ↔
        (∀ k : Nat, 1 ≤ k → k < d →
          bget b (r + dr * (k : Int)) (c + dc * (k : Int)) = none)) := by
  intro d
  induction d with
  | zero => intro h1; exact absurd h1 (by omega)
  | succ d0 ih =>
    intro _h1 fuel r c q hdf hbounds htarget henemy
    obtain ⟨f, rfl⟩ : ∃ f, fuel = f + 1 := ⟨fuel - 1, by omega⟩
    have hb1 : inBounds (r + dr) (c + dc) = true := by
      simpa using hbounds 1 (le_refl 1) (by omega)
    rw [cannonLoop_step_true, if_pos hb1]
    by_cases hd0 : d0 = 0
    · subst hd0
      have htarget1 : bget b (r + dr) (c + dc) = some q := by simpa using htarget
      simp only [htarget1, if_pos henemy]
      constructor
      · intro _ k hk1 hk2
        omega
      · intro _
        simp
    · have hd01 : 1 ≤ d0 := by omega
      have harithr : r + dr * ((d0 + 1 : Nat) : Int) = (r + dr) + dr * (d0 : Int) := by
        push_cast; ring
      have harithc : c + dc * ((d0 + 1 : Nat) : Int) = (c + dc) + dc * (d0 : Int) := by
        push_cast; ring
      cases hs1 : bget b (r + dr) (c + dc) with
      | none =>
        simp only [hs1]
        have hiff := ih hd01 f (r + dr) (c + dc) q (by omega)
          (fun k hk1 hk2 => by
            have hb := hbounds (k + 1) (by omega) (by omega)
            rwa [show r + dr * ((k + 1 : Nat) : Int) = (r + dr) + dr * (k : Int) by
                push_cast; ring,
              show c + dc * ((k + 1 : Nat) : Int) = (c + dc) + dc * (k : Int) by
                push_cast; ring] at hb)
          (by rwa [harithr, harithc] at htarget)
          henemy
        rw [harithr, harithc, hiff]
        constructor
        · intro h k hk1 hk2
          by_cases hk : k = 1
          · subst hk
            simpa using hs1
          · have h2 := h (k - 1) (by omega) (by omega)
            have hc1 : ((k - 1 : Nat) : Int) = (k : Int) - 1 := by omega
            rwa [show (r + dr) + dr * ((k - 1 : Nat) : Int) = r + dr * (k : Int) by
                rw [hc1]; ring,
              show (c + dc) + dc * ((k - 1 : Nat) : Int) = c + dc * (k : Int) by
                rw [hc1]; ring] at h2
        · intro h k hk1 hk2
          have h2 := h (k + 1) (by omega) (by omega)
          rwa [show r + dr * ((k + 1 : Nat) : Int) = (r + dr) + dr * (k : Int) by
              push_cast; ring,
            show c + dc * ((k + 1 : Nat) : Int) = (c + dc) + dc * (k : Int) by
              push_cast; ring] at h2
      | some q' =>
        simp only [hs1]
        constructor
        · intro hmem
          exfalso
          split at hmem
          · rw [List.mem_singleton, Square.mk.injEq] at hmem
            obtain ⟨hr0, hc0⟩ := hmem
            rcases hdir with ⟨h1, h2⟩ | ⟨h1, h2⟩ <;> rcases h2 with h2 | h2 <;>
              subst h1 <;> subst h2 <;>
              [skip; skip; skip; skip] <;>
              simp only [Nat.cast_add, Nat.cast_one] at hr0 hc0 <;> omega
          · cases hmem
        · intro hall
          exfalso
          have h1 := hall 1 (le_refl 1) (by omega)
          simp only [Nat.cast_one, mul_one] at h1
          rw [h1] at hs1
          cases hs1

/-- Number of occupied squares the cannon scan passes strictly before reaching
distance `d` along direction (dr, dc). -/
def rayOccCount (b : Board) (r c dr dc : Int) (d : Nat) : Nat :=
  (List.range (d - 1)).countP fun j =>
    (bget b (r + dr * ((j + 1 : Nat) : Int)) (c + dc * ((j + 1 : Nat) : Int))).isSome

theorem rayOccCount_shift (b : Board) (r c dr dc : Int) (d0 : Nat) (h : 1 ≤ d0) :
    rayOccCount b r c dr dc (d0 + 1) =
      rayOccCount b (r + dr) (c + dc) dr dc d0 +
      (if (bget b (r + dr) (c + dc)).isSome then 1 else 0) := by
  unfold rayOccCount
  rw [show d0 + 1 - 1 = (d0 - 1) + 1 by omega, List.range_succ_eq_map,
    List.countP_cons, List.countP_map]
  congr 1
  · apply List.countP_congr
    intro j _
    show (bget b (r + dr * ((j + 1 + 1 : Nat) : Int))
        (c + dc * ((j + 1 + 1 : Nat) : Int))).isSome = true ↔
      (bget b ((r + dr) + dr * ((j + 1 : Nat) : Int))
        ((c + dc) + dc * ((j + 1 : Nat) : Int))).isSome = true
    rw [show r + dr * ((j + 1 + 1 : Nat) : Int) =
        (r + dr) + dr * ((j + 1 : Nat) : Int) by push_cast; ring,
      show c + dc * ((j + 1 + 1 : Nat) : Int) =
        (c + dc) + dc * ((j + 1 : Nat) : Int) by push_cast; ring]
  · norm_num

theorem countP_range_rev (p : Nat → Bool) : ∀ n : Nat,
    (List.range n).countP (fun j => p (n - 1 - j)) = (List.range n).countP p := by
  intro n
  induction n with
  | zero => rfl
  | succ n0 ih =>
    conv_lhs => rw [List.range_succ_eq_map]
    conv_rhs => rw [List.range_succ]
    rw [List.countP_cons, List.countP_map, List.countP_append]
    have hfun : ((fun j => p (n0 + 1 - 1 - j)) ∘ Nat.succ) = (fun j => p (n0 - 1 - j)) := by
      funext j
      show p (n0 + 1 - 1 - (j + 1)) = p (n0 - 1 - j)
      congr 1
      omega
    rw [hfun, ih]
    have hhead : (n0 + 1 - 1 - 0) = n0 := by omega
    simp [hhead, List.countP_cons]

theorem cannonLoop_scan_iff (b : Board) (side : Side) (dr dc : Int)
    (hdir : (dr = 0 ∧ (dc = 1 ∨ dc = -1)) ∨ (dc = 0 ∧ (dr = 1 ∨ dr = -1))) :
    ∀ (d : Nat), 1 ≤ d → ∀ (fuel : Nat) (r c : Int) (q : Char),
      d ≤ fuel →
      (∀ k : Nat, 1 ≤ k → k ≤ d →
        inBounds (r + dr * (k : Int)) (c + dc * (k : Int)) = true) →
      bget b (r + dr * (d : Int)) (c + dc * (d : Int)) = some q →
      pieceColor q ≠ side →
      ((⟨r + dr * (d : Int), c + dc * (d : Int)⟩ : Square) ∈
          cannonLoop b side dr dc fuel r c false ↔
        rayOccCount b r c dr dc d = 1) := by
  intro d
  induction d with
  | zero => intro h1; exact absurd h1 (by omega)
  | succ d0 ih =>
    intro _h1 fuel r c q hdf hbounds htarget henemy
    obtain ⟨f, rfl⟩ : ∃ f, fuel = f + 1 := ⟨fuel - 1, by omega⟩
    have hb1 : inBounds (r + dr) (c + dc) = true := by
      simpa using hbounds 1 (le_refl 1) (by omega)
    rw [cannonLoop_step_false, if_pos hb1]
    by_cases hd0 : d0 = 0
    · subst hd0
      have htarget1 : bget b (r + dr) (c + dc) = some q := by simpa using htarget
      simp only [htarget1]
      constructor
      · intro hmem
        exfalso
        obtain ⟨k, hk1, _, hrow, hcol⟩ :=
          cannonLoop_mem_coords b side dr dc f (r + dr) (c + dc) true _ hmem
        simp only [Nat.cast_one, mul_one] at hrow hcol
        rcases hdir with ⟨h1, h2⟩ | ⟨h1, h2⟩ <;> rcases h2 with h2 | h2 <;>
          subst h1 <;> subst h2 <;> omega
      · intro hcount
        exfalso
        unfold rayOccCount at hcount
        simp at hcount
    · have hd01 : 1 ≤ d0 := by omega
      have harithr : r + dr * ((d0 + 1 : Nat) : Int) = (r + dr) + dr * (d0 : Int) := by
        push_cast; ring
      have harithc : c + dc * ((d0 + 1 : Nat) : Int) = (c + dc) + dc * (d0 : Int) := by
        push_cast; ring
      have hbshift : ∀ k : Nat, 1 ≤ k → k ≤ d0 →
          inBounds ((r + dr) + dr * (k : Int)) ((c + dc) + dc * (k : Int)) = true := by
        intro k hk1 hk2
        have hb := hbounds (k + 1) (by omega) (by omega)
        rwa [show r + dr * ((k + 1 : Nat) : Int) = (r + dr) + dr * (k : Int) by
            push_cast; ring,
          show c + dc * ((k + 1 : Nat) : Int) = (c + dc) + dc * (k : Int) by
            push_cast; ring] at hb
      have htshift : bget b ((r + dr) + dr * (d0 : Int)) ((c + dc) + dc * (d0 : Int))
          = some q := by rwa [harithr, harithc] at htarget
      cases hs1 : bget b (r + dr) (c + dc) with
      | none =>
        simp only [hs1]
        have hiff := ih hd01 f (r + dr) (c + dc) q (by omega) hbshift htshift henemy
        have hcnt : rayOccCount b r c dr dc (d0 + 1) =
            rayOccCount b (r + dr) (c + dc) dr dc d0 := by
          rw [rayOccCount_shift b r c dr dc d0 hd01, hs1]
          simp
        rw [harithr, harithc, List.mem_cons, hcnt, ← hiff]
        constructor
        · rintro (heq | hm)
          · exfalso
            rw [Square.mk.injEq] at heq
            obtain ⟨hr0, hc0⟩ := heq
            rcases hdir with ⟨h1, h2⟩ | ⟨h1, h2⟩ <;> rcases h2 with h2 | h2 <;>
              subst h1 <;> subst h2 <;> omega
          · exact hm
        · exact Or.inr
      | some q' =>
        simp only [hs1]
        have hjump := cannonLoop_jumped_iff b side dr dc hdir d0 hd01 f
          (r + dr) (c + dc) q (by omega) hbshift htshift henemy
        rw [harithr, harithc, hjump]
        have hcnt : rayOccCount b r c dr dc (d0 + 1) =
            rayOccCount b (r + dr) (c + dc) dr dc d0 + 1 := by
          rw [rayOccCount_shift b r c dr dc d0 hd01, hs1]
          simp
        rw [hcnt]
        constructor
        · intro hall
          have hz : rayOccCount b (r + dr) (c + dc) dr dc d0 = 0 := by
            unfold rayOccCount
            rw [List.countP_eq_zero]
            intro j hj
            rw [List.mem_range] at hj
            have hnone := hall (j + 1) (by omega) (by omega)
            rw [hnone]
            simp
          omega
        · intro hsum
          have hz : rayOccCount b (r + dr) (c + dc) dr dc d0 = 0 := by omega
          unfold rayOccCount at hz
          rw [List.countP_eq_zero] at hz
          intro k hk1 hk2
          have hk := hz (k - 1) (List.mem_range.mpr (by omega))
          rw [show (k - 1 + 1 : Nat) = k by omega] at hk
          cases hopt : bget b ((r + dr) + dr * (k : Int)) ((c + dc) + dc * (k : Int)) with
          | none => rfl
          | some _ =>
            rw [hopt] at hk
            simp at hk

/-- The integers strictly between lo and hi, in increasing order. -/
def intsBetween (lo hi : Int) : List Int :=
  (List.range (hi - lo - 1).toNat).map fun (j : Nat) => lo + 1 + (j : Int)

/-- Claim-side notion: the number of occupied squares strictly between two
squares sharing a rank or a file. -/
def betweenOccupiedCount (b : Board) (s t : Square) : Nat :=
  if s.row = t.row then
    (intsBetween (min s.col t.col) (max s.col t.col)).countP
      fun x => (bget b s.row x).isSome
  else if s.col = t.col then
    (intsBetween (min s.row t.row) (max s.row t.row)).countP
      fun y => (bget b y s.col).isSome
  else 0

theorem rayOcc_between_right (b : Board) (row col tc : Int) (h : col < tc) :
    rayOccCount b row col 0 1 (tc - col).toNat =
      betweenOccupiedCount b ⟨row, col⟩ ⟨row, tc⟩ := by
  unfold rayOccCount betweenOccupiedCount intsBetween
  rw [if_pos rfl]
  simp only [min_eq_left (le_of_lt h), max_eq_right (le_of_lt h), List.countP_map,
    Function.comp]
  rw [show ((tc - col).toNat - 1) = (tc - col - 1).toNat by omega]
  apply List.countP_congr
  intro j _
  show (bget b (row + 0 * ((j + 1 : Nat) : Int)) (col + 1 * ((j + 1 : Nat) : Int))).isSome
      = true ↔ (bget b row (col + 1 + (j : Int))).isSome = true
  rw [show row + 0 * ((j + 1 : Nat) : Int) = row by ring,
    show col + 1 * ((j + 1 : Nat) : Int) = col + 1 + (j : Int) by push_cast; ring]

theorem rayOcc_between_left (b : Board) (row col tc : Int) (h : tc < col) :
    rayOccCount b row col 0 (-1) (col - tc).toNat =
      betweenOccupiedCount b ⟨row, col⟩ ⟨row, tc⟩ := by
  unfold rayOccCount betweenOccupiedCount intsBetween
  rw [if_pos rfl]
  simp only [min_eq_right (le_of_lt h), max_eq_left (le_of_lt h), List.countP_map,
    Function.comp]
  rw [show ((col - tc).toNat - 1) = (col - tc - 1).toNat by omega]
  have hbeta : List.countP ((fun x => (bget b row x).isSome) ∘ fun (j : Nat) =>
        tc + 1 + (j : Int)) (List.range (col - tc - 1).toNat) =
      List.countP (fun (m : Nat) => (bget b row (tc + 1 + (m : Int))).isSome)
        (List.range (col - tc - 1).toNat) :=
    List.countP_congr fun j _ => Iff.rfl
  rw [hbeta, ← countP_range_rev (fun m => (bget b row (tc + 1 + (m : Int))).isSome)
    (col - tc - 1).toNat]
  apply List.countP_congr
  intro j hj
  rw [List.mem_range] at hj
  show (bget b (row + 0 * ((j + 1 : Nat) : Int)) (col + (-1) * ((j + 1 : Nat) : Int))).isSome
      = true ↔
    (bget b row (tc + 1 + (((col - tc - 1).toNat - 1 - j : Nat) : Int))).isSome = true
  rw [show row + 0 * ((j + 1 : Nat) : Int) = row by ring,
    show col + (-1) * ((j + 1 : Nat) : Int) =
      tc + 1 + (((col - tc - 1).toNat - 1 - j : Nat) : Int) by
        push_cast [Int.toNat_of_nonneg (by omega : (0 : Int) ≤ col - tc - 1)]
        omega]

theorem rayOcc_between_down (b : Board) (row col tr : Int) (h : row < tr) :
    rayOccCount b row col 1 0 (tr - row).toNat =
      betweenOccupiedCount b ⟨row, col⟩ ⟨tr, col⟩ := by
  unfold rayOccCount betweenOccupiedCount intsBetween
  rw [if_neg (by simp only; omega), if_pos rfl]
  simp only [min_eq_left (le_of_lt h), max_eq_right (le_of_lt h), List.countP_map,
    Function.comp]
  rw [show ((tr - row).toNat - 1) = (tr - row - 1).toNat by omega]
  apply List.countP_congr
  intro j _
  show (bget b (row + 1 * ((j + 1 : Nat) : Int)) (col + 0 * ((j + 1 : Nat) : Int))).isSome
      = true ↔ (bget b (row + 1 + (j : Int)) col).isSome = true
  rw [show col + 0 * ((j + 1 : Nat) : Int) = col by ring,
    show row + 1 * ((j + 1 : Nat) : Int) = row + 1 + (j : Int) by push_cast; ring]

theorem rayOcc_between_up (b : Board) (row col tr : Int) (h : tr < row) :
    rayOccCount b row col (-1) 0 (row - tr).toNat =
      betweenOccupiedCount b ⟨row, col⟩ ⟨tr, col⟩ := by
  unfold rayOccCount betweenOccupiedCount intsBetween
  rw [if_neg (by simp only; omega), if_pos rfl]
  simp only [min_eq_right (le_of_lt h), max_eq_left (le_of_lt h), List.countP_map,
    Function.comp]
  rw [show ((row - tr).toNat - 1) = (row - tr - 1).toNat by omega]
  have hbeta : List.countP ((fun y => (bget b y col).isSome) ∘ fun (j : Nat) =>
        tr + 1 + (j : Int)) (List.range (row - tr - 1).toNat) =
      List.countP (fun (m : Nat) => (bget b (tr + 1 + (m : Int)) col).isSome)
        (List.range (row - tr - 1).toNat) :=
    List.countP_congr fun j _ => Iff.rfl
  rw [hbeta, ← countP_range_rev (fun m => (bget b (tr + 1 + (m : Int)) col).isSome)
    (row - tr - 1).toNat]
  apply List.countP_congr
  intro j hj
  rw [List.mem_range] at hj
  show (bget b (row + (-1) * ((j + 1 : Nat) : Int)) (col + 0 * ((j + 1 : Nat) : Int))).isSome
      = true ↔
    (bget b (tr + 1 + (((row - tr - 1).toNat - 1 - j : Nat) : Int)) col).isSome = true
  rw [show col + 0 * ((j + 1 : Nat) : Int) = col by ring,
    show row + (-1) * ((j + 1 : Nat) : Int) =
      tr + 1 + (((row - tr - 1).toNat - 1 - j : Nat) : Int) by
        push_cast [Int.toNat_of_nonneg (by omega : (0 : Int) ≤ row - tr - 1)]
        omega]

/-- C5: a cannon's pseudo-move set contains a capture onto an enemy-occupied
square of its rank or file exactly when one single occupied square lies
strictly between the cannon and that square. -/
theorem cannon_capture_iff (b : Board) (hwf : boardWF b) (row col : Int) (P : Char)
    (hP : bget b row col = some P) (htype : P.toLower = 'c')
    (tr tc : Int) (hline : tr = row ∨ tc = col) (q : Char)
    (hq : bget b tr tc = some q) (henemy : pieceColor q ≠ pieceColor P)
    (hne : (⟨tr, tc⟩ : Square) ≠ ⟨row, col⟩) :
    ((⟨tr, tc⟩ : Square) ∈ generatePieceMoves b row col P ↔
      betweenOccupiedCount b ⟨row, col⟩ ⟨tr, tc⟩ = 1) := by
  obtain ⟨h0r, h10r, h0c, h9c⟩ := bget_some_bounds b hwf row col P hP
  obtain ⟨h0tr, h10tr, h0tc, h9tc⟩ := bget_some_bounds b hwf tr tc q hq
  have hgen : generatePieceMoves b row col P =
      orthDirs.flatMap fun d => cannonLoop b (pieceColor P) d.1 d.2 9 row col false := by
    unfold generatePieceMoves
    simp only [htype]
    simp only [show (('c' : Char) = 'r') = False by simp, if_false, eq_self_iff_true,
      if_true]
  rw [hgen]
  have hmem4 : ((⟨tr, tc⟩ : Square) ∈ orthDirs.flatMap fun d =>
      cannonLoop b (pieceColor P) d.1 d.2 9 row col false) ↔
      ((⟨tr, tc⟩ : Square) ∈ cannonLoop b (pieceColor P) 0 1 9 row col false ∨
       (⟨tr, tc⟩ : Square) ∈ cannonLoop b (pieceColor P) 0 (-1) 9 row col false ∨
       (⟨tr, tc⟩ : Square) ∈ cannonLoop b (pieceColor P) 1 0 9 row col false ∨
       (⟨tr, tc⟩ : Square) ∈ cannonLoop b (pieceColor P) (-1) 0 9 row col false) := by
    simp only [orthDirs, List.flatMap_cons, List.flatMap_nil, List.append_nil,
      List.mem_append]
  rw [hmem4]
  have hcoord : ∀ dr dc : Int,
      (⟨tr, tc⟩ : Square) ∈ cannonLoop b (pieceColor P) dr dc 9 row col false →
      ∃ k : Nat, 1 ≤ k ∧ tr = row + dr * (k : Int) ∧ tc = col + dc * (k : Int) := by
    intro dr dc hm
    obtain ⟨k, hk1, _, hr0, hc0⟩ :=
      cannonLoop_mem_coords b (pieceColor P) dr dc 9 row col false _ hm
    exact ⟨k, hk1, hr0, hc0⟩
  rcases hline with hrow | hcol
  · subst hrow
    rcases lt_trichotomy tc col with hlt | heq | hgt
    · have hcast : (((col - tc).toNat : Nat) : Int) = col - tc :=
        Int.toNat_of_nonneg (by omega)
      have e1 : tr + 0 * (((col - tc).toNat : Nat) : Int) = tr := by ring
      have e2 : col + (-1) * (((col - tc).toNat : Nat) : Int) = tc := by
        rw [hcast]; ring
      have hiff := cannonLoop_scan_iff b (pieceColor P) 0 (-1)
        (Or.inl ⟨rfl, Or.inr rfl⟩) (col - tc).toNat (by omega) 9 tr col q (by omega)
        (by
          intro k hk1 hk2
          simp only [inBounds, Bool.and_eq_true, decide_eq_true_eq]
          refine ⟨⟨⟨by omega, by omega⟩, by omega⟩, by omega⟩)
        (by rw [e1, e2]; exact hq) henemy
      rw [e1, e2] at hiff
      rw [← rayOcc_between_left b tr col tc hlt]
      constructor
      · rintro (hm | hm | hm | hm)
        · exfalso; obtain ⟨k, hk1, hr0, hc0⟩ := hcoord 0 1 hm; omega
        · exact hiff.mp hm
        · exfalso; obtain ⟨k, hk1, hr0, hc0⟩ := hcoord 1 0 hm; omega
        · exfalso; obtain ⟨k, hk1, hr0, hc0⟩ := hcoord (-1) 0 hm; omega
      · intro hcnt
        exact Or.inr (Or.inl (hiff.mpr hcnt))
    · exact absurd (by rw [heq]) hne
    · have hcast : (((tc - col).toNat : Nat) : Int) = tc - col :=
        Int.toNat_of_nonneg (by omega)
      have e1 : tr + 0 * (((tc - col).toNat : Nat) : Int) = tr := by ring
      have e2 : col + 1 * (((tc - col).toNat : Nat) : Int) = tc := by
        rw [hcast]; ring
      have hiff := cannonLoop_scan_iff b (pieceColor P) 0 1
        (Or.inl ⟨rfl, Or.inl rfl⟩) (tc - col).toNat (by omega) 9 tr col q (by omega)
        (by
          intro k hk1 hk2
          simp only [inBounds, Bool.and_eq_true, decide_eq_true_eq]
          refine ⟨⟨⟨by omega, by omega⟩, by omega⟩, by omega⟩)
        (by rw [e1, e2]; exact hq) henemy
      rw [e1, e2] at hiff
      rw [← rayOcc_between_right b tr col tc hgt]
      constructor
      · rintro (hm | hm | hm | hm)
        · exact hiff.mp hm
        · exfalso; obtain ⟨k, hk1, hr0, hc0⟩ := hcoord 0 (-1) hm; omega
        · exfalso; obtain ⟨k, hk1, hr0, hc0⟩ := hcoord 1 0 hm; omega
        · exfalso; obtain ⟨k, hk1, hr0, hc0⟩ := hcoord (-1) 0 hm; omega
      · intro hcnt
        exact Or.inl (hiff.mpr hcnt)
  · subst hcol
    rcases lt_trichotomy tr row with hlt | heq | hgt
    · have hcast : (((row - tr).toNat : Nat) : Int) = row - tr :=
        Int.toNat_of_nonneg (by omega)
      have e1 : row + (-1) * (((row - tr).toNat : Nat) : Int) = tr := by
        rw [hcast]; ring
      have e2 : tc + 0 * (((row - tr).toNat : Nat) : Int) = tc := by ring
      have hiff := cannonLoop_scan_iff b (pieceColor P) (-1) 0
        (Or.inr ⟨rfl, Or.inr rfl⟩) (row - tr).toNat (by omega) 9 row tc q (by omega)
        (by
          intro k hk1 hk2
          simp only [inBounds, Bool.and_eq_true, decide_eq_true_eq]
          refine ⟨⟨⟨by omega, by omega⟩, by omega⟩, by omega⟩)
        (by rw [e1, e2]; exact hq) henemy
      rw [e1, e2] at hiff
      rw [← rayOcc_between_up b row tc tr hlt]
      constructor
      · rintro (hm | hm | hm | hm)
        · exfalso; obtain ⟨k, hk1, hr0, hc0⟩ := hcoord 0 1 hm; omega
        · exfalso; obtain ⟨k, hk1, hr0, hc0⟩ := hcoord 0 (-1) hm; omega
        · exfalso; obtain ⟨k, hk1, hr0, hc0⟩ := hcoord 1 0 hm; omega
        · exact hiff.mp hm
      · intro hcnt
        exact Or.inr (Or.inr (Or.inr (hiff.mpr hcnt)))
    · exact absurd (by rw [heq]) hne
    · have hcast : (((tr - row).toNat : Nat) : Int) = tr - row :=
        Int.toNat_of_nonneg (by omega)
      have e1 : row + 1 * (((tr - row).toNat : Nat) : Int) = tr := by
        rw [hcast]; ring
      have e2 : tc + 0 * (((tr - row).toNat : Nat) : Int) = tc := by ring
      have hiff := cannonLoop_scan_iff b (pieceColor P) 1 0
        (Or.inr ⟨rfl, Or.inl rfl⟩) (tr - row).toNat (by omega) 9 row tc q (by omega)
        (by
          intro k hk1 hk2
          simp only [inBounds, Bool.and_eq_true, decide_eq_true_eq]
          refine ⟨⟨⟨by omega, by omega⟩, by omega⟩, by omega⟩)
        (by rw [e1, e2]; exact hq) henemy
      rw [e1, e2] at hiff
      rw [← rayOcc_between_down b row tc tr hgt]
      constructor
      · rintro (hm | hm | hm | hm)
        · exfalso; obtain ⟨k, hk1, hr0, hc0⟩ := hcoord 0 1 hm; omega
        · exfalso; obtain ⟨k, hk1, hr0, hc0⟩ := hcoord 0 (-1) hm; omega
        · exact hiff.mp hm
        · exfalso; obtain ⟨k, hk1, hr0, hc0⟩ := hcoord (-1) 0 hm; omega
      · intro hcnt
        exact Or.inr (Or.inr (Or.inl (hiff.mpr hcnt)))

theorem cannon_capture_iff_witness :
    betweenOccupiedCount
      (parseFen (("9/1p7/9/1n7/9/9/9/1C7/9/9 w - - 0 1").data)).board ⟨7, 1⟩ ⟨1, 1⟩ = 1 ∧
    (⟨1, 1⟩ : Square) ∈ generatePieceMoves
      (parseFen (("9/1p7/9/1n7/9/9/9/1C7/9/9 w - - 0 1").data)).board 7 1 'C' :=
  ⟨by decide,
   (cannon_capture_iff (parseFen (("9/1p7/9/1n7/9/9/9/1C7/9/9 w - - 0 1").data)).board
      (by decide) 7 1 'C' (by decide) (by decide) 1 1 (Or.inr rfl) 'p'
      (by decide) (by decide) (by decide)).mpr (by decide)⟩
